import Mathlib

/-!
Verification of the checkpoint scheduling engine of tlm_adjoint
(`tlm_adjoint/binomial_checkpointing.py`).

The development shallowly embeds the source file:

* `n_advance` (source lines 34-100) as a pure function on `Nat`, with the
  unbounded `while` loop over `t` realised by a fuel-passing recursion
  (`findT`); the fuel `n` is provably sufficient, and the exit invariant is
  established in `findT_exit`.
* `MultistageCheckpointSchedule` (lines 172-320) and
  `TwoLevelCheckpointSchedule` (lines 323-464) as state-passing generator
  functions returning the complete list of yielded actions, or an error when
  the Python code would raise.  All Python integers involved are non-negative
  in every reachable state, so `Nat` with truncated subtraction and floor
  division coincides with Python semantics on the runs we reason about.
* Each yielded action is recorded together with the generator's reverse
  counter `self._r` and the snapshot-stack length at the moment of the yield
  (ghost observations used to state the invariants; they do not influence
  control flow).
* Floating point cost weights of `allocate_snapshots` are modelled as
  rationals; with the default weights 1, 1, 0 the accumulated sums are small
  integers, where float and rational arithmetic agree.
-/

namespace TLM

/-- The checkpointing action records of `tlm_adjoint/checkpointing.py`.
Modelled from the spec: the record classes themselves live outside the
analysed source tree; the spec's action protocol section lists their fields
(`Configure(store_ics, store_data)`, `Forward(n0, n1)`, `Reverse(n1, n0)`,
`Read(n, storage, delete)`, `Write(n, storage)`, `Clear(clear_ics,
clear_data)`, `EndForward()`, `EndReverse(exhausted)`). -/
inductive Action where
  | Configure (store_ics store_data : Bool)
  | Forward (n0 n1 : Nat)
  | Reverse (n1 n0 : Nat)
  | Read (n : Nat) (storage : String) (delete : Bool)
  | Write (n : Nat) (storage : String)
  | Clear (clear_ics clear_data : Bool)
  | EndForward
  | EndReverse (exhausted : Bool)
deriving DecidableEq

/-- A yielded action together with two ghost observations of the generator
state at the moment of the yield: the reverse counter `self._r` and the
current snapshot-stack length. -/
structure Yield where
  act : Action
  r : Nat
  stk : Nat
deriving DecidableEq

/-- Predicate: the action is a `Reverse` record. -/
def isRev : Action → Bool
  | .Reverse _ _ => true
  | _ => false

/-- Predicate: the action is an `EndReverse` record. -/
def isEndRev : Action → Bool
  | .EndReverse _ => true
  | _ => false

/-- Predicate: the action is a `Write` record. -/
def isWrite : Action → Bool
  | .Write _ _ => true
  | _ => false

/-- Number of `Reverse` actions in a trace. -/
def countRev (ys : List Yield) : Nat := ys.countP (fun y => isRev y.act)

/-- Number of `EndReverse` actions in a trace. -/
def countEndRev (ys : List Yield) : Nat := ys.countP (fun y => isEndRev y.act)

/-- Number of `Write` actions in a trace. -/
def countWrite (ys : List Yield) : Nat := ys.countP (fun y => isWrite y.act)

/-- How the reverse counter evolves across one action: it increases by one at
a `Reverse` and is unchanged otherwise. -/
def rStep (r : Nat) (a : Action) : Nat := if isRev a then r + 1 else r

/-- The reverse counter after a trace, starting from `r0`. -/
def rAfter (r0 : Nat) (ys : List Yield) : Nat := ys.foldl (fun r y => rStep r y.act) r0

/-- The trace's `r` ghost field is consistent with starting value `r0`:
each recorded `r` equals the previous one advanced by `rStep` through the
recorded action.  This is the statement that the reverse counter increases by
exactly one at each `Reverse` action and at no other action. -/
def rOk : Nat → List Yield → Bool
  | _, [] => true
  | r0, y :: ys => (y.r == rStep r0 y.act) && rOk (rStep r0 y.act) ys

/-- How the snapshot-stack length evolves across one action: a `Write` pushes
one snapshot, a deleting `Read` pops one, and no other action changes it. -/
def stkStep (k : Nat) (a : Action) : Nat :=
  match a with
  | .Write _ _ => k + 1
  | .Read _ _ true => k - 1
  | _ => k

/-- The stack length after a trace, starting from `k0`. -/
def stkAfter (k0 : Nat) (ys : List Yield) : Nat := ys.foldl (fun k y => stkStep k y.act) k0

/-- The trace's `stk` ghost field is consistent with starting length `k0`:
the snapshot-stack length recorded at each yield equals the previous one
advanced by `stkStep` (pushed by `Write`, popped by deleting `Read`). -/
def stkOkB : Nat → List Yield → Bool
  | _, [] => true
  | k0, y :: ys => (y.stk == stkStep k0 y.act) && stkOkB (stkStep k0 y.act) ys

/-- Each `Write n _` in the list is immediately preceded by a `Forward`
action that starts at `n` (`prev` is the action immediately preceding the
list, if any). -/
def wafAux : Option Action → List Action → Bool
  | _, [] => true
  | prev, a :: rest =>
    (match a, prev with
     | .Write n _, some (.Forward n0 _) => n == n0
     | .Write _ _, _ => false
     | _, _ => true) && wafAux (some a) rest

/-- The claim's version: each `Write n _` is immediately preceded by a
`Forward` action that ends at `n`. -/
def wafClaimAux : Option Action → List Action → Bool
  | _, [] => true
  | prev, a :: rest =>
    (match a, prev with
     | .Write n _, some (.Forward _ n1) => n == n1
     | .Write _ _, _ => false
     | _, _ => true) && wafClaimAux (some a) rest

/-- The last action of the list, or `prev` when the list is empty. -/
def lastOr (prev : Option Action) : List Action → Option Action
  | [] => prev
  | a :: rest => lastOr (some a) rest

section TraceLemmas

theorem rOk_append (r0 : Nat) (as bs : List Yield) :
    rOk r0 (as ++ bs) = (rOk r0 as && rOk (rAfter r0 as) bs) := by
  induction as generalizing r0 with
  | nil => simp [rOk, rAfter]
  | cons y ys ih =>
    simp only [List.cons_append, rOk, List.append_eq, ih, rAfter, List.foldl_cons,
      Bool.and_assoc]

theorem rAfter_append (r0 : Nat) (as bs : List Yield) :
    rAfter r0 (as ++ bs) = rAfter (rAfter r0 as) bs := by
  simp [rAfter]

theorem stkOkB_append (k0 : Nat) (as bs : List Yield) :
    stkOkB k0 (as ++ bs) = (stkOkB k0 as && stkOkB (stkAfter k0 as) bs) := by
  induction as generalizing k0 with
  | nil => simp [stkOkB, stkAfter]
  | cons y ys ih =>
    simp only [List.cons_append, stkOkB, List.append_eq, ih, stkAfter, List.foldl_cons,
      Bool.and_assoc]

theorem stkAfter_append (k0 : Nat) (as bs : List Yield) :
    stkAfter k0 (as ++ bs) = stkAfter (stkAfter k0 as) bs := by
  simp [stkAfter]

theorem stkAfter_nil (k0 : Nat) : stkAfter k0 [] = k0 := rfl

theorem stkAfter_cons (k0 : Nat) (y : Yield) (ys : List Yield) :
    stkAfter k0 (y :: ys) = stkAfter (stkStep k0 y.act) ys := rfl

theorem rAfter_nil (r0 : Nat) : rAfter r0 [] = r0 := rfl

theorem rAfter_cons (r0 : Nat) (y : Yield) (ys : List Yield) :
    rAfter r0 (y :: ys) = rAfter (rStep r0 y.act) ys := rfl

theorem lastOr_append (prev : Option Action) (as bs : List Action) :
    lastOr prev (as ++ bs) = lastOr (lastOr prev as) bs := by
  induction as generalizing prev with
  | nil => simp [lastOr]
  | cons a rest ih => simpa [lastOr] using ih (some a)

theorem wafAux_append (prev : Option Action) (as bs : List Action) :
    wafAux prev (as ++ bs) = (wafAux prev as && wafAux (lastOr prev as) bs) := by
  induction as generalizing prev with
  | nil => simp [wafAux, lastOr]
  | cons a rest ih =>
    simp only [List.cons_append, wafAux, List.append_eq, ih, Bool.and_assoc, lastOr]

theorem countRev_append (as bs : List Yield) :
    countRev (as ++ bs) = countRev as + countRev bs := by
  simp [countRev, List.countP_append]

theorem countEndRev_append (as bs : List Yield) :
    countEndRev (as ++ bs) = countEndRev as + countEndRev bs := by
  simp [countEndRev, List.countP_append]

theorem countWrite_append (as bs : List Yield) :
    countWrite (as ++ bs) = countWrite as + countWrite bs := by
  simp [countWrite, List.countP_append]

end TraceLemmas

/-!
## The step-advance optimizer `n_advance` (source lines 34-100)
-/

/-- The `while b_s_tm1 >= n or n > b_s_t` loop of `n_advance` (source lines
66-74).  State is `(t, b_s_tm2, b_s_tm1, b_s_t)`; the recursion consumes one
unit of fuel per iteration (the loop terminates because `b_s_t` grows without
bound; `findT_exit` below proves fuel `n` suffices for the reachable entry
states). -/
def findT (n s : Nat) : Nat → Nat × Nat × Nat × Nat → Nat × Nat × Nat × Nat
  | 0, st => st
  | fuel + 1, (t, b2, b1, b0) =>
    if b1 ≥ n ∨ n > b0 then
      findT n s fuel (t + 1, b1, b0, (b0 * (s + (t + 1))) / (t + 1))
    else (t, b2, b1, b0)

/-- The step-advance optimizer of source lines 34-100.  `Nat` subtraction and
division agree with the Python `-` and `//` here: all intermediate values are
non-negative (for `n ≥ 1` the only subtractions are `n - 1` and differences
that the surrounding guards keep non-negative). -/
def n_advance (n snapshots : Nat) (trajectory : String) : Except String Nat :=
  if n < 1 then .error "Require at least one block"
  else if snapshots < 1 then .error "Require at least one snapshot"
  else
    -- Discard excess snapshots
    let snapshots := max (min snapshots (n - 1)) 1
    -- Handle limiting cases
    if snapshots = 1 then .ok (n - 1)
    else if snapshots = n - 1 then .ok 1
    else
      let st := findT n snapshots n (2, 1, snapshots + 1, ((snapshots + 1) * (snapshots + 2)) / 2)
      let t := st.1
      let b_s_tm2 := st.2.1
      let b_s_tm1 := st.2.2.1
      let b_s_t := st.2.2.2
      if trajectory = "maximum" then
        let b_sm1_tm2 := (b_s_tm2 * snapshots) / (snapshots + t - 2)
        if n ≤ b_s_tm1 + b_sm1_tm2 then .ok (n - b_s_tm1 + b_s_tm2)
        else
          let b_sm1_tm1 := (b_s_tm1 * snapshots) / (snapshots + t - 1)
          let b_sm2_tm1 := (b_sm1_tm1 * (snapshots - 1)) / (snapshots + t - 2)
          if n ≤ b_s_tm1 + b_sm2_tm1 + b_sm1_tm2 then .ok (b_s_tm2 + b_sm1_tm2)
          else if n ≤ b_s_tm1 + b_sm1_tm1 + b_sm2_tm1 then .ok (n - b_sm1_tm1 - b_sm2_tm1)
          else .ok b_s_tm1
      else if trajectory = "revolve" then
        let b_sm1_tm1 := (b_s_tm1 * snapshots) / (snapshots + t - 1)
        let b_sm2_tm1 := (b_sm1_tm1 * (snapshots - 1)) / (snapshots + t - 2)
        if n ≤ b_s_tm1 + b_sm2_tm1 then .ok b_s_tm2
        else if n < b_s_tm1 + b_sm1_tm1 + b_sm2_tm1 then .ok (n - b_sm1_tm1 - b_sm2_tm1)
        else .ok b_s_tm1
      else .error "Unexpected trajectory"

example : n_advance 10 1 "maximum" = .ok 9 := rfl
example : n_advance 10 9 "maximum" = .ok 1 := rfl
example : n_advance 10 3 "maximum" = .ok 4 := rfl
example : n_advance 5 2 "maximum" = .ok 2 := rfl
example : n_advance 1 1 "maximum" = .ok 0 := rfl
example : n_advance 100 5 "revolve" = .ok 45 := rfl

/-!
### Exactness of the incremental binomial recurrences

The Python code computes binomial coefficients incrementally with integer
floor division; each division is in fact exact, which the following lemmas
establish via `Nat.succ_mul_choose_eq`.
-/

theorem choose_step_up (m k : Nat) :
    (Nat.choose m k * (m + 1)) / (k + 1) = Nat.choose (m + 1) (k + 1) := by
  have h := Nat.succ_mul_choose_eq m k
  have h' : Nat.choose m k * (m + 1) = Nat.choose (m + 1) (k + 1) * (k + 1) := by
    calc Nat.choose m k * (m + 1) = (m + 1) * Nat.choose m k := Nat.mul_comm _ _
    _ = Nat.choose (m + 1) (k + 1) * (k + 1) := by
        simpa [Nat.succ_eq_add_one] using h
  rw [h', Nat.mul_div_cancel _ (Nat.succ_pos k)]

theorem choose_step_down (m k : Nat) :
    (Nat.choose (m + 1) (k + 1) * (k + 1)) / (m + 1) = Nat.choose m k := by
  have h : Nat.choose (m + 1) (k + 1) * (k + 1) = (m + 1) * Nat.choose m k := by
    simpa [Nat.succ_eq_add_one] using (Nat.succ_mul_choose_eq m k).symm
  rw [h, Nat.mul_div_cancel_left _ (Nat.succ_pos m)]

theorem choose_mul_sub_div (m K : Nat) (hK : K ≤ m) :
    (Nat.choose (m + 1) K * (m + 1 - K)) / (m + 1) = Nat.choose m K := by
  obtain ⟨j, rfl⟩ : ∃ j, m = K + j := ⟨m - K, by omega⟩
  have e1 : K + j + 1 - K = j + 1 := by omega
  rw [e1]
  have e2 : Nat.choose (K + j + 1) K = Nat.choose (K + j + 1) (j + 1) := by
    have := @Nat.choose_symm (K + j + 1) K (by omega)
    have e3 : K + j + 1 - K = j + 1 := by omega
    rw [e3] at this
    exact this.symm
  rw [e2, choose_step_down (K + j) j]
  have := @Nat.choose_symm (K + j) j (by omega)
  have e4 : K + j - j = K := by omega
  rw [e4] at this
  exact this.symm

/-- Exit invariant of the `findT` loop: starting from state
`t = u + 2` with the three binomial values `C(s+u, u)`, `C(s+u+1, u+1)`,
`C(s+u+2, u+2)` and with `C(s+u+1, u+1) < n`, and with enough fuel, the loop
stops at some `t = v + 2` with `C(s+v+1, v+1) < n ≤ C(s+v+2, v+2)`. -/
theorem findT_exit (n s : Nat) (hs : 1 ≤ s) :
    ∀ fuel u, n ≤ fuel + u + 3 →
    Nat.choose (s + u + 1) (u + 1) < n →
    ∃ v, u ≤ v ∧
      findT n s fuel
        (u + 2, Nat.choose (s + u) u, Nat.choose (s + u + 1) (u + 1),
          Nat.choose (s + u + 2) (u + 2))
        = (v + 2, Nat.choose (s + v) v, Nat.choose (s + v + 1) (v + 1),
          Nat.choose (s + v + 2) (v + 2))
      ∧ Nat.choose (s + v + 1) (v + 1) < n ∧ n ≤ Nat.choose (s + v + 2) (v + 2) := by
  intro fuel
  induction fuel with
  | zero =>
    intro u hfu hlt
    refine ⟨u, Nat.le_refl u, rfl, hlt, ?_⟩
    have h1 : u + 3 ≤ s + u + 2 := by omega
    have h2 : Nat.choose (u + 3) (u + 2) ≤ Nat.choose (s + u + 2) (u + 2) :=
      Nat.choose_le_choose _ h1
    have h3 : Nat.choose (u + 3) (u + 2) = u + 3 := by
      simpa using Nat.choose_succ_self_right (u + 2)
    omega
  | succ fuel ih =>
    intro u hfu hlt
    by_cases hexit : n ≤ Nat.choose (s + u + 2) (u + 2)
    · refine ⟨u, Nat.le_refl u, ?_, hlt, hexit⟩
      rw [findT]
      rw [if_neg (by omega)]
    · rw [findT, if_pos (by omega)]
      have hstep : (Nat.choose (s + u + 2) (u + 2) * (s + (u + 2 + 1))) / (u + 2 + 1)
          = Nat.choose (s + u + 3) (u + 3) := by
        have e1 : s + (u + 2 + 1) = s + u + 2 + 1 := by omega
        rw [e1, choose_step_up (s + u + 2) (u + 2)]
      rw [hstep]
      have hlt' : Nat.choose (s + (u + 1) + 1) (u + 1 + 1) < n := by
        have e : s + (u + 1) + 1 = s + u + 2 := by omega
        have e5 : u + 1 + 1 = u + 2 := by omega
        rw [e, e5]; omega
      have hfu' : n ≤ fuel + (u + 1) + 3 := by omega
      obtain ⟨v, hv, hEq, h1, h2⟩ := ih (u + 1) hfu' hlt'
      refine ⟨v, by omega, ?_, h1, h2⟩
      have e4 : s + (u + 1) + 2 = s + u + 3 := by omega
      have e3 : s + (u + 1) + 1 = s + u + 2 := by omega
      have e2 : s + (u + 1) = s + u + 1 := by omega
      have e1 : u + 1 + 2 = u + 3 := by omega
      have e5 : u + 1 + 1 = u + 2 := by omega
      rw [e4, e3, e2, e1, e5] at hEq
      have e0 : u + 2 + 1 = u + 3 := by omega
      rw [e0]
      exact hEq

theorem bsm12_eq (a v : Nat) :
    (Nat.choose (a + 2 + v) v * (a + 2)) / (a + 2 + v) = Nat.choose (a + 1 + v) v := by
  have h := choose_mul_sub_div (a + 1 + v) v (by omega)
  have e2 : a + 1 + v + 1 - v = a + 2 := by omega
  rw [e2] at h
  have e1 : a + 1 + v + 1 = a + 2 + v := by omega
  rw [e1] at h
  exact h

theorem bsm11_eq (a v : Nat) :
    (Nat.choose (a + 2 + v + 1) (v + 1) * (a + 2)) / (a + 2 + v + 1)
      = Nat.choose (a + 2 + v) (v + 1) := by
  have h := choose_mul_sub_div (a + 2 + v) (v + 1) (by omega)
  have e2 : a + 2 + v + 1 - (v + 1) = a + 2 := by omega
  rw [e2] at h
  exact h

theorem bsm21_eq (a v : Nat) :
    (Nat.choose (a + 2 + v) (v + 1) * (a + 1)) / (a + 2 + v)
      = Nat.choose (a + 1 + v) (v + 1) := by
  have h := choose_mul_sub_div (a + 1 + v) (v + 1) (by omega)
  have e2 : a + 1 + v + 1 - (v + 1) = a + 1 := by omega
  rw [e2] at h
  have e1 : a + 1 + v + 1 = a + 2 + v := by omega
  rw [e1] at h
  exact h

/-- The general (non-degenerate) case of the Griewank--Walther bounds: for
`2 ≤ s ≤ n - 2` both trajectory policies return a run length strictly
between `0` and `n`. -/
theorem n_advance_general (n a : Nat) (traj : String) (hn : a + 4 ≤ n)
    (htraj : traj = "maximum" ∨ traj = "revolve") :
    ∃ r, n_advance n (a + 2) traj = .ok r ∧ 0 < r ∧ r < n := by
  have h1 : ¬ (n < 1) := by omega
  have h1' : ¬ (a + 2 < 1) := by omega
  have hclamp : max (min (a + 2) (n - 1)) 1 = a + 2 := by omega
  have hs1 : ¬ (a + 2 = 1) := by omega
  have hs2 : ¬ (a + 2 = n - 1) := by omega
  have hentry : Nat.choose (a + 2 + 0 + 1) (0 + 1) < n := by
    norm_num [Nat.choose_one_right]; omega
  obtain ⟨v, hv0, hEq, hb1, hb0⟩ :=
    findT_exit n (a + 2) (by omega) n 0 (by omega) hentry
  norm_num [Nat.choose_zero_right, Nat.choose_one_right] at hEq hb1 hb0
  -- abbreviations for the binomial values at loop exit
  set B2 := Nat.choose (a + 2 + v) v with hB2
  set B1 := Nat.choose (a + 2 + v + 1) (v + 1) with hB1
  set B0 := Nat.choose (a + 2 + v + 2) (v + 2) with hB0
  set C12 := Nat.choose (a + 1 + v) v with hC12
  set C11 := Nat.choose (a + 2 + v) (v + 1) with hC11
  set C21 := Nat.choose (a + 1 + v) (v + 1) with hC21
  have pB2 : 0 < B2 := Nat.choose_pos (by omega)
  have pC12 : 0 < C12 := Nat.choose_pos (by omega)
  have pC11 : 0 < C11 := Nat.choose_pos (by omega)
  have pC21 : 0 < C21 := Nat.choose_pos (by omega)
  have hPascal : B1 = B2 + C11 := by
    rw [hB1, hB2, hC11]; exact Nat.choose_succ_succ (a + 2 + v) v
  have hB2B1 : B2 < B1 := by omega
  have hC11B1 : C11 < B1 := by omega
  have hinit : (a + 2 + 1) * (a + 2 + 2) / 2 = Nat.choose (a + 2 + 2) 2 := by
    rw [Nat.choose_two_right]
    congr 1
    have e : a + 2 + 2 - 1 = a + 2 + 1 := by omega
    rw [e]; ring
  unfold n_advance
  rw [if_neg h1, if_neg h1']
  simp only [hclamp]
  rw [if_neg hs1, if_neg hs2, hinit, hEq]
  have den1 : a + 2 + (v + 2) - 2 = a + 2 + v := by omega
  have den2 : a + 2 + (v + 2) - 1 = a + 2 + v + 1 := by omega
  have mns : a + 2 - 1 = a + 1 := by omega
  rcases htraj with h | h <;> subst h
  · simp only [if_pos rfl, den1, den2, mns]
    rw [bsm12_eq, bsm11_eq, bsm21_eq]
    by_cases hc1 : n ≤ B1 + C12
    · rw [if_pos hc1]; exact ⟨n - B1 + B2, rfl, by omega, by omega⟩
    · rw [if_neg hc1]
      by_cases hc2 : n ≤ B1 + C21 + C12
      · rw [if_pos hc2]; exact ⟨B2 + C12, rfl, by omega, by omega⟩
      · rw [if_neg hc2]
        by_cases hc3 : n ≤ B1 + C11 + C21
        · rw [if_pos hc3]; exact ⟨n - C11 - C21, rfl, by omega, by omega⟩
        · rw [if_neg hc3]; exact ⟨B1, rfl, by omega, by omega⟩
  · rw [if_neg (by decide : ¬ ("revolve" = "maximum")), if_pos rfl]
    simp only [den1, den2, mns]
    rw [bsm11_eq, bsm21_eq]
    by_cases hc1 : n ≤ B1 + C21
    · rw [if_pos hc1]; exact ⟨B2, rfl, by omega, by omega⟩
    · rw [if_neg hc1]
      by_cases hc2 : n < B1 + C11 + C21
      · rw [if_pos hc2]; exact ⟨n - C11 - C21, rfl, by omega, by omega⟩
      · rw [if_neg hc2]; exact ⟨B1, rfl, by omega, by omega⟩

/-- With a single snapshot (after clamping) the minimal-storage run `n - 1`
is returned, for any trajectory string. -/
theorem n_advance_one (n : Nat) (traj : String) (hn : 2 ≤ n) :
    n_advance n 1 traj = .ok (n - 1) := by
  unfold n_advance
  rw [if_neg (by omega : ¬ (n < 1)), if_neg (by omega : ¬ (1 < 1))]
  simp only [show max (min 1 (n - 1)) 1 = 1 by omega]
  simp

/-- For `n = 2` every snapshot budget is clamped to one and the run length
is `1`. -/
theorem n_advance_two (s : Nat) (traj : String) (hs : 1 ≤ s) :
    n_advance 2 s traj = .ok 1 := by
  unfold n_advance
  rw [if_neg (by omega : ¬ (2 < 1)), if_neg (by omega : ¬ (s < 1))]
  simp only [show max (min s (2 - 1)) 1 = 1 by omega]
  simp

/-- With `snapshots ≥ n - 1` (maximal storage, after clamping) the run
length is `1`, for any trajectory string. -/
theorem n_advance_max (n s : Nat) (traj : String) (hn : 3 ≤ n) (hs : n - 1 ≤ s) :
    n_advance n s traj = .ok 1 := by
  unfold n_advance
  rw [if_neg (by omega : ¬ (n < 1)), if_neg (by omega : ¬ (s < 1))]
  simp only [show max (min s (n - 1)) 1 = n - 1 by omega]
  rw [if_neg (by omega : ¬ (n - 1 = 1))]
  simp

/-- Combined characterisation of `n_advance` for `n ≥ 2`: the result is
always strictly between `0` and `n`, equals `n - 1` for a single snapshot and
`1` for `snapshots ≥ n - 1`. -/
theorem n_advance_ok (n s : Nat) (traj : String) (hn : 2 ≤ n) (hs : 1 ≤ s)
    (htraj : traj = "maximum" ∨ traj = "revolve") :
    ∃ r, n_advance n s traj = .ok r ∧ 0 < r ∧ r < n ∧
      (s = 1 → r = n - 1) ∧ (n - 1 ≤ s → r = 1) := by
  by_cases hs1 : s = 1
  · subst hs1
    exact ⟨n - 1, n_advance_one n traj hn, by omega, by omega, fun _ => rfl,
      fun h => by omega⟩
  · by_cases hmax : n - 1 ≤ s
    · by_cases hn2 : n = 2
      · subst hn2
        exact ⟨1, n_advance_two s traj hs, by omega, by omega, by omega,
          fun _ => rfl⟩
      · exact ⟨1, n_advance_max n s traj (by omega) hmax, by omega, by omega,
          by omega, fun _ => rfl⟩
    · obtain ⟨a, rfl⟩ : ∃ a, s = a + 2 := ⟨s - 2, by omega⟩
      obtain ⟨r, hr, h0, h1⟩ := n_advance_general n a traj (by omega) htraj
      exact ⟨r, hr, h0, h1, by omega, by omega⟩

/-!
## The multistage (binomial) schedule (source lines 172-320)
-/

/-- State of a `MultistageCheckpointSchedule`.  The fields `n`, `r`, `max_n`
are the base-class counters (modelled from the spec: the base class
`CheckpointSchedule` lives outside the analysed source tree; per the spec it
is created with `n = 0`, `r = 0` and, for the multistage schedule, with
`max_n` fixed at construction).  The snapshot stack mirrors Python's list
with its top at the end (`append` / `[-1]` / `pop`). -/
structure MSState where
  max_n : Nat
  snapshots_in_ram : Nat
  snapshots_on_disk : Nat
  storage : List String
  n : Nat
  r : Nat
  snapshots : List Nat
  exhausted : Bool
  keep_block_0_ics : Bool
  trajectory : String
deriving DecidableEq

/-- The method `_snapshot` (source lines 314-320): a stack push guarded by
the capacity check, returning the tier of the slot the snapshot lands in.
The Python assertion `n >= 0` is trivially true for `Nat`. -/
def msSnapshot (s : MSState) (n : Nat) : Except String (String × MSState) :=
  if ¬ (n < s.max_n) then .error "assert n < max_n"
  else if s.snapshots.length ≥ s.snapshots_in_ram + s.snapshots_on_disk then
    .error "Invalid checkpointing state"
  else
    let snaps := s.snapshots ++ [n]
    .ok (s.storage.getD (snaps.length - 1) "", { s with snapshots := snaps })

/-- The forward-progression loop of the reverse phase (source lines
273-290, including the post-loop consistency check): repeatedly `Configure`,
advance by `n_advance`, `Forward`, push a snapshot, `Write`, `Clear`, while
`n < max_n - r - 1`.  One unit of fuel per iteration; each iteration
strictly advances `n`, so fuel `max_n + 1` suffices. -/
def msForwardSweep : Nat → MSState → Except String (List Yield × MSState)
  | 0, _ => .error "out of fuel"
  | fuel + 1, s =>
    if s.n < s.max_n - s.r - 1 then
      let y1 : Yield := ⟨.Configure true false, s.r, s.snapshots.length⟩
      let snapshots := s.snapshots_in_ram + s.snapshots_on_disk - s.snapshots.length
      let n0 := s.n
      match n_advance (s.max_n - s.r - n0) snapshots s.trajectory with
      | .error e => .error e
      | .ok adv =>
        let n1 := n0 + adv
        if ¬ (n1 > n0) then .error "assert n1 > n0"
        else
          let s1 := { s with n := n1 }
          let y2 : Yield := ⟨.Forward n0 n1, s1.r, s1.snapshots.length⟩
          match msSnapshot s1 n0 with
          | .error e => .error e
          | .ok (cp_storage, s2) =>
            let y3 : Yield := ⟨.Write n0 cp_storage, s2.r, s2.snapshots.length⟩
            let y4 : Yield := ⟨.Clear true true, s2.r, s2.snapshots.length⟩
            match msForwardSweep fuel s2 with
            | .error e => .error e
            | .ok (ys, s3) => .ok (y1 :: y2 :: y3 :: y4 :: ys, s3)
    else
      if s.n ≠ s.max_n - s.r - 1 then .error "Invalid checkpointing state"
      else .ok ([], s)

/-- The initial forward phase (source lines 211-228, including the
post-loop consistency check).  It is syntactically the `r = 0` instance of
the reverse-phase progression loop (`msForwardLoop0_eq` below). -/
def msForwardLoop0 : Nat → MSState → Except String (List Yield × MSState)
  | 0, _ => .error "out of fuel"
  | fuel + 1, s =>
    if s.n < s.max_n - 1 then
      let y1 : Yield := ⟨.Configure true false, s.r, s.snapshots.length⟩
      let snapshots := s.snapshots_in_ram + s.snapshots_on_disk - s.snapshots.length
      let n0 := s.n
      match n_advance (s.max_n - n0) snapshots s.trajectory with
      | .error e => .error e
      | .ok adv =>
        let n1 := n0 + adv
        if ¬ (n1 > n0) then .error "assert n1 > n0"
        else
          let s1 := { s with n := n1 }
          let y2 : Yield := ⟨.Forward n0 n1, s1.r, s1.snapshots.length⟩
          match msSnapshot s1 n0 with
          | .error e => .error e
          | .ok (cp_storage, s2) =>
            let y3 : Yield := ⟨.Write n0 cp_storage, s2.r, s2.snapshots.length⟩
            let y4 : Yield := ⟨.Clear true true, s2.r, s2.snapshots.length⟩
            match msForwardLoop0 fuel s2 with
            | .error e => .error e
            | .ok (ys, s3) => .ok (y1 :: y2 :: y3 :: y4 :: ys, s3)
    else
      if s.n ≠ s.max_n - 1 then .error "Invalid checkpointing state"
      else .ok ([], s)

/-- The per-step adjoint block (source lines 292-299): configure, one
forward step, one reverse step, clear. -/
def msAdjoint (s : MSState) : List Yield × MSState :=
  let y1 : Yield := ⟨.Configure (s.keep_block_0_ics && (s.n == 0)) true, s.r, s.snapshots.length⟩
  let s1 : MSState := { s with n := s.n + 1 }
  let y2 : Yield := ⟨.Forward (s1.n - 1) s1.n, s1.r, s1.snapshots.length⟩
  let s2 : MSState := { s1 with r := s1.r + 1 }
  let y3 : Yield := ⟨.Reverse s2.n (s2.n - 1), s2.r, s2.snapshots.length⟩
  let y4 : Yield := ⟨.Clear (!s2.keep_block_0_ics || (s2.n != 1)) true, s2.r, s2.snapshots.length⟩
  ([y1, y2, y3, y4], s2)

/-- One iteration of the reverse loop (source lines 246-299): pop or replay
from the most recent snapshot, then perform one adjoint step. -/
def msReverseBody (s : MSState) : Except String (List Yield × MSState) :=
  if s.snapshots.length = 0 then .error "Invalid checkpointing state"
  else
    let cp_n := s.snapshots.getLastD 0
    let cp_storage := s.storage.getD (s.snapshots.length - 1) ""
    if cp_n = s.max_n - s.r - 1 then
      let s1 : MSState := { s with snapshots := s.snapshots.dropLast, n := cp_n }
      let y1 : Yield := ⟨.Read cp_n cp_storage true, s1.r, s1.snapshots.length⟩
      let y2 : Yield := ⟨.Clear true true, s1.r, s1.snapshots.length⟩
      let adj := msAdjoint s1
      .ok (y1 :: y2 :: adj.1, adj.2)
    else
      let s1 : MSState := { s with n := cp_n }
      let y1 : Yield := ⟨.Read cp_n cp_storage false, s1.r, s1.snapshots.length⟩
      let y2 : Yield := ⟨.Clear true true, s1.r, s1.snapshots.length⟩
      let y3 : Yield := ⟨.Configure false false, s1.r, s1.snapshots.length⟩
      let snapshots := s1.snapshots_in_ram + s1.snapshots_on_disk - s1.snapshots.length + 1
      let n0 := s1.n
      match n_advance (s1.max_n - s1.r - n0) snapshots s1.trajectory with
      | .error e => .error e
      | .ok adv =>
        let n1 := n0 + adv
        if ¬ (n1 > n0) then .error "assert n1 > n0"
        else
          let s2 : MSState := { s1 with n := n1 }
          let y4 : Yield := ⟨.Forward n0 n1, s2.r, s2.snapshots.length⟩
          let y5 : Yield := ⟨.Clear true true, s2.r, s2.snapshots.length⟩
          match msForwardSweep (s2.max_n + 1) s2 with
          | .error e => .error e
          | .ok (ys, s3) =>
            let adj := msAdjoint s3
            .ok (y1 :: y2 :: y3 :: y4 :: y5 :: (ys ++ adj.1), adj.2)

/-- The reverse loop `while self._r < self._max_n` (source lines 245-299).
Each iteration increases `r` by one, so fuel `max_n + 1` suffices. -/
def msReverseLoop : Nat → MSState → Except String (List Yield × MSState)
  | 0, _ => .error "out of fuel"
  | fuel + 1, s =>
    if s.r < s.max_n then
      match msReverseBody s with
      | .error e => .error e
      | .ok (ys, s1) =>
        match msReverseLoop fuel s1 with
        | .error e => .error e
        | .ok (ys2, s2) => .ok (ys ++ ys2, s2)
    else .ok ([], s)

/-- The full generator `MultistageCheckpointSchedule.iter` (source lines
206-306): forward phase, forward-to-reverse transition, reverse phase,
final consistency checks, `EndReverse(True)`.  The guard `self._max_n is
None` of line 209 cannot fire because the multistage constructor always
fixes `max_n`. -/
def msRun (s : MSState) : Except String (List Yield × MSState) :=
  match msForwardLoop0 (s.max_n + 1) s with
  | .error e => .error e
  | .ok (ys1, s1) =>
    let y1 : Yield := ⟨.Configure (s1.keep_block_0_ics && (s1.n == 0)) true, s1.r, s1.snapshots.length⟩
    let s2 : MSState := { s1 with n := s1.n + 1 }
    let y2 : Yield := ⟨.Forward (s2.n - 1) s2.n, s2.r, s2.snapshots.length⟩
    let y3 : Yield := ⟨.EndForward, s2.r, s2.snapshots.length⟩
    let s3 : MSState := { s2 with r := s2.r + 1 }
    let y4 : Yield := ⟨.Reverse s3.n (s3.n - 1), s3.r, s3.snapshots.length⟩
    let y5 : Yield := ⟨.Clear (!s3.keep_block_0_ics || (s3.n != 1)) true, s3.r, s3.snapshots.length⟩
    match msReverseLoop (s.max_n + 1) s3 with
    | .error e => .error e
    | .ok (ys3, s4) =>
      if s4.r ≠ s4.max_n then .error "Invalid checkpointing state"
      else if s4.snapshots.length ≠ 0 then .error "Invalid checkpointing state"
      else
        .ok (ys1 ++ ([y1, y2, y3, y4, y5]
              ++ (ys3 ++ [⟨.EndReverse true, s4.r, s4.snapshots.length⟩])),
          { s4 with exhausted := true })

/-- The method `is_exhausted` (source lines 308-309). -/
def msIsExhausted (s : MSState) : Bool := s.exhausted

/-!
## The snapshot tier allocator `allocate_snapshots` (source lines 103-169)
-/

/-- The dry-run schedule `MultistageCheckpointSchedule(max_n, snapshots, 0)`
built by `allocate_snapshots` (source lines 118-119): with
`snapshots_on_disk = 0` the constructor's second branch (source line 191)
provisions every slot with the `"RAM"` tier (and with `snapshots = 0` its
first branch gives the same empty tuple).  `keep_block_0_ics` defaults to
`False`. -/
def dryState (max_n snapshots : Nat) (traj : String) : MSState :=
  { max_n := max_n, snapshots_in_ram := snapshots, snapshots_on_disk := 0,
    storage := List.replicate snapshots "RAM", n := 0, r := 0, snapshots := [],
    exhausted := false, keep_block_0_ics := false, trajectory := traj }

/-- Add `x` to entry `i` of the weight list (Python `weights[i] += x`; the
index is in range whenever the Python code runs without error). -/
def bump (w : List ℚ) (i : Nat) (x : ℚ) : List ℚ := w.set i (w.getD i 0 + x)

/-- One step of the `allocate_snapshots` action dispatch (source lines
123-154): the running slot counter `snapshot_i` (which starts at `-1`)
together with the weight list, updated per action. -/
def allocStep (snapshots : Nat) (write_weight read_weight delete_weight : ℚ)
    (st : Int × List ℚ) (a : Action) : Except String (Int × List ℚ) :=
  match a with
  | .Read _ _ del =>
    if st.1 < 0 then .error "Invalid checkpointing state"
    else
      let w := bump st.2 st.1.toNat read_weight
      if del then .ok (st.1 - 1, bump w st.1.toNat delete_weight)
      else .ok (st.1, w)
  | .Write _ _ =>
    let i := st.1 + 1
    if i ≥ snapshots then .error "Invalid checkpointing state"
    else .ok (i, bump st.2 i.toNat write_weight)
  | _ => .ok st

/-- Stable insertion (descending by weight): a later element is placed after
every earlier element with a greater-or-equal weight.  Together with
`sortDesc` this models Python's stable `sorted(..., key=lambda p: p[1],
reverse=True)` of source lines 165-166. -/
def insertDesc (x : Nat × ℚ) : List (Nat × ℚ) → List (Nat × ℚ)
  | [] => [x]
  | y :: ys => if x.2 > y.2 then x :: y :: ys else y :: insertDesc x ys

/-- Stable sort, descending by weight (see `insertDesc`). -/
def sortDesc (l : List (Nat × ℚ)) : List (Nat × ℚ) :=
  l.foldl (fun acc x => insertDesc x acc) []

/-- Pair each weight with its slot index (Python `enumerate(weights)`). -/
def enumWeights (w : List ℚ) : List (Nat × ℚ) := (List.range w.length).zip w

/-- The allocation step of `allocate_snapshots` (source lines 164-168):
start from all-`"disk"`, assign `"RAM"` to the `snapshots_in_ram` slots of
largest weight in the stable descending order. -/
def allocFromWeights (snapshots_in_ram : Nat) (w : List ℚ) : List String :=
  let chosen := ((sortDesc (enumWeights w)).take snapshots_in_ram).map (fun p => p.1)
  (List.range w.length).map (fun i => if chosen.contains i then "RAM" else "disk")

/-- The function `allocate_snapshots` (source lines 103-169): run the dry
multistage schedule to `EndReverse` (a successful `msRun` trace ends exactly
there), accumulate per-slot weights via `allocStep`, check the final counter
(`assert snapshot_i == -1`, line 162) and allocate tiers by weight. -/
def allocate_snapshots (max_n snapshots_in_ram snapshots_on_disk : Nat)
    (write_weight read_weight delete_weight : ℚ) (trajectory : String) :
    Except String (List ℚ × List String) :=
  let snapshots := snapshots_in_ram + snapshots_on_disk
  let w0 := List.replicate snapshots (0 : ℚ)
  match msRun (dryState max_n snapshots trajectory) with
  | .error e => .error e
  | .ok (ys, _) =>
    match ys.foldlM
        (fun st y => allocStep snapshots write_weight read_weight delete_weight st y.act)
        ((-1 : Int), w0) with
    | .error e => .error e
    | .ok (i, w) =>
      if i ≠ -1 then .error "assert snapshot_i == -1"
      else .ok (w, allocFromWeights snapshots_in_ram w)

/-- The constructor `MultistageCheckpointSchedule.__init__` (source lines
186-204): the tier list is all-`"disk"` when `snapshots_in_ram = 0`,
all-`"RAM"` when `snapshots_on_disk = 0`, and otherwise produced by the
dry-run allocator (default weights 1, 1, 0).  The base-class counters start
at `n = 0`, `r = 0` (modelled from the spec, see `MSState`). -/
def msInit (max_n snapshots_in_ram snapshots_on_disk : Nat)
    (keep_block_0_ics : Bool) (trajectory : String) : Except String MSState :=
  let mk : List String → MSState := fun storage =>
    { max_n := max_n, snapshots_in_ram := snapshots_in_ram,
      snapshots_on_disk := snapshots_on_disk, storage := storage, n := 0, r := 0,
      snapshots := [], exhausted := false, keep_block_0_ics := keep_block_0_ics,
      trajectory := trajectory }
  if snapshots_in_ram = 0 then .ok (mk (List.replicate snapshots_on_disk "disk"))
  else if snapshots_on_disk = 0 then .ok (mk (List.replicate snapshots_in_ram "RAM"))
  else
    match allocate_snapshots max_n snapshots_in_ram snapshots_on_disk 1 1 0 trajectory with
    | .error e => .error e
    | .ok (_, storage) => .ok (mk storage)

/-!
## Invariants of the multistage schedule
-/

/-- Total snapshot capacity of a multistage schedule. -/
def msCap (s : MSState) : Nat := s.snapshots_in_ram + s.snapshots_on_disk

theorem rAfter_eq (r0 : Nat) (ys : List Yield) : rAfter r0 ys = r0 + countRev ys := by
  induction ys generalizing r0 with
  | nil => simp [rAfter, countRev]
  | cons y ys ih =>
    simp only [rAfter, List.foldl_cons, countRev, List.countP_cons] at *
    rw [ih]
    unfold rStep
    by_cases h : isRev y.act = true <;> simp [h] <;> omega

theorem msSnapshot_spec {s : MSState} {n : Nat} {c : String} {s' : MSState}
    (h : msSnapshot s n = .ok (c, s')) :
    s' = { s with snapshots := s.snapshots ++ [n] } ∧
    s.snapshots.length < msCap s ∧ n < s.max_n := by
  unfold msSnapshot at h
  split at h
  · exact absurd h (by simp)
  · split at h
    · exact absurd h (by simp)
    · simp only [Except.ok.injEq, Prod.mk.injEq] at h
      refine ⟨h.2.symm, ?_, by omega⟩
      unfold msCap; omega

/-- Scheduler-state fields that no generator phase modifies. -/
def msFieldsEq (s s' : MSState) : Prop :=
  s'.max_n = s.max_n ∧ s'.snapshots_in_ram = s.snapshots_in_ram ∧
  s'.snapshots_on_disk = s.snapshots_on_disk ∧ s'.storage = s.storage ∧
  s'.keep_block_0_ics = s.keep_block_0_ics ∧ s'.trajectory = s.trajectory ∧
  s'.exhausted = s.exhausted

theorem msFieldsEq_refl (s : MSState) : msFieldsEq s s := by
  unfold msFieldsEq; exact ⟨rfl, rfl, rfl, rfl, rfl, rfl, rfl⟩

theorem msFieldsEq_trans {s t u : MSState} (h1 : msFieldsEq s t) (h2 : msFieldsEq t u) :
    msFieldsEq s u := by
  unfold msFieldsEq at *
  exact ⟨h2.1.trans h1.1, h2.2.1.trans h1.2.1, h2.2.2.1.trans h1.2.2.1,
    h2.2.2.2.1.trans h1.2.2.2.1, h2.2.2.2.2.1.trans h1.2.2.2.2.1,
    h2.2.2.2.2.2.1.trans h1.2.2.2.2.2.1, h2.2.2.2.2.2.2.trans h1.2.2.2.2.2.2⟩

theorem msCap_eq_of_fieldsEq {s s' : MSState} (h : msFieldsEq s s') : msCap s' = msCap s := by
  unfold msCap; rw [h.2.1, h.2.2.1]

theorem msForwardLoop0_eq : ∀ (fuel : Nat) (s : MSState), s.r = 0 →
    msForwardLoop0 fuel s = msForwardSweep fuel s := by
  intro fuel
  induction fuel with
  | zero => intro s _; rfl
  | succ fuel ih =>
    intro s hr
    rw [msForwardLoop0, msForwardSweep, hr]
    simp only [Nat.sub_zero]
    split
    · split
      · rfl
      · split
        · rfl
        · split
          · rfl
          · rename_i cp_s2 heq
            obtain ⟨hs2, -, -⟩ := msSnapshot_spec heq
            rw [ih _ (by simp [hs2, hr])]
    · rfl

/-- Combined invariants of the forward progression loop: it preserves all
configuration fields and `r`, stops exactly at `n = max_n - r - 1`, emits no
`Reverse` or `EndReverse`, its ghost annotations are consistent, the stack
length evolves by the emitted actions and never exceeds the capacity, and
every `Write` immediately follows the `Forward` that starts at its step. -/
theorem msForwardSweep_spec : ∀ (fuel : Nat) (s : MSState) (ys : List Yield) (s' : MSState),
    msForwardSweep fuel s = .ok (ys, s') →
    msFieldsEq s s' ∧ s'.r = s.r ∧
    s'.n = s.max_n - s.r - 1 ∧
    countRev ys = 0 ∧ countEndRev ys = 0 ∧
    rOk s.r ys = true ∧
    stkOkB s.snapshots.length ys = true ∧
    s'.snapshots.length = stkAfter s.snapshots.length ys ∧
    (s.snapshots.length ≤ msCap s → ∀ y ∈ ys, y.stk ≤ msCap s) ∧
    (s.snapshots.length ≤ msCap s → s'.snapshots.length ≤ msCap s) ∧
    (∀ prev, wafAux prev (ys.map (fun y => y.act)) = true) := by
  intro fuel
  induction fuel with
  | zero => intro s ys s' h; exact absurd h (by simp [msForwardSweep])
  | succ fuel ih =>
    intro s ys s' h
    rw [msForwardSweep] at h
    split at h
    · rename_i hcond
      dsimp only at h
      split at h
      · exact absurd h (by simp)
      · rename_i adv hadv
        split at h
        · exact absurd h (by simp)
        · rename_i hgt
          split at h
          · exact absurd h (by simp)
          · rename_i cp_storage s2 hsnap
            split at h
            · exact absurd h (by simp)
            · rename_i ys2 s3 hrec
              simp only [Except.ok.injEq, Prod.mk.injEq] at h
              obtain ⟨hys, hs'⟩ := h
              subst hys
              obtain ⟨hs2, hlen, hn0max⟩ := msSnapshot_spec hsnap
              subst hs2
              obtain ⟨hF, hr3, hn3, hcr, hce, hrOk, hstk, hlenEq, hbound, hbfin, hwaf⟩ :=
                ih _ _ _ hrec
              subst hs'
              simp only at hF hr3 hn3 hrOk hstk hlenEq hbound hbfin
              unfold msCap at hlen hbound hbfin ⊢
              simp only [List.length_append, List.length_singleton] at hlen hstk hlenEq ⊢
              simp only [List.length_append, List.length_singleton] at hbound hbfin
              refine ⟨msFieldsEq_trans (by unfold msFieldsEq; simp) hF, by simpa using hr3,
                by simpa using hn3, by simpa [countRev, List.countP_cons, isRev] using hcr,
                by simpa [countEndRev, List.countP_cons, isEndRev] using hce, ?_, ?_, ?_,
                ?_, fun _ => hbfin (by omega), ?_⟩
              · simp only [rOk, rStep, isRev]
                simpa using hrOk
              · simp only [stkOkB, stkStep]
                simpa using hstk
              · simp only [stkAfter, List.foldl_cons, stkStep]
                simpa using hlenEq
              · intro hcap y hy
                simp only [List.mem_cons] at hy
                rcases hy with rfl | rfl | rfl | rfl | hy
                · simpa using hcap
                · simpa using hcap
                · simp only; omega
                · simp only; omega
                · exact hbound (by omega) y hy
              · intro prev
                simp only [List.map_cons, wafAux, beq_self_eq_true, Bool.and_self,
                  Bool.true_and]
                exact hwaf _
    · rename_i hcond
      split at h
      · exact absurd h (by simp)
      · rename_i hneq
        simp only [Except.ok.injEq, Prod.mk.injEq] at h
        obtain ⟨hys, hs'⟩ := h
        subst hys; subst hs'
        refine ⟨msFieldsEq_refl s, rfl, by omega, rfl, rfl, rfl, rfl, rfl,
          fun _ y hy => absurd hy (List.not_mem_nil y), fun hc => hc, fun prev => rfl⟩

/-- Combined invariants of one reverse-loop iteration: configuration fields
are preserved, `r` increases by exactly one (with one `Reverse` emitted and
no `EndReverse`), `n` ends at `max_n - r`, ghost annotations are consistent,
the stack stays within capacity, and `Write`s follow their `Forward`s. -/
theorem msReverseBody_spec (s : MSState) (ys : List Yield) (s' : MSState)
    (hrmax : s.r < s.max_n) (h : msReverseBody s = .ok (ys, s')) :
    msFieldsEq s s' ∧ s'.r = s.r + 1 ∧
    s'.n = s.max_n - s.r ∧
    countRev ys = 1 ∧ countEndRev ys = 0 ∧
    rOk s.r ys = true ∧
    stkOkB s.snapshots.length ys = true ∧
    s'.snapshots.length = stkAfter s.snapshots.length ys ∧
    (s.snapshots.length ≤ msCap s → ∀ y ∈ ys, y.stk ≤ msCap s) ∧
    (s.snapshots.length ≤ msCap s → s'.snapshots.length ≤ msCap s) ∧
    (∀ prev, wafAux prev (ys.map (fun y => y.act)) = true) := by
  rw [msReverseBody] at h
  split at h
  · exact absurd h (by simp)
  · rename_i hne
    dsimp only at h
    split at h
    · -- pop branch: the top snapshot is exactly the next required step
      rename_i hcp
      rw [List.getLastD_eq_getLast?] at hcp
      simp only [msAdjoint, Except.ok.injEq, Prod.mk.injEq] at h
      obtain ⟨hys, hs'⟩ := h
      subst hys; subst hs'
      have hL : s.snapshots.dropLast.length = s.snapshots.length - 1 :=
        List.length_dropLast s.snapshots
      refine ⟨by unfold msFieldsEq; simp, by simp, by simp; omega, ?_, ?_, ?_, ?_, ?_,
        ?_, ?_, ?_⟩
      · simp [countRev, List.countP_cons, isRev]
      · simp [countEndRev, List.countP_cons, isEndRev]
      · simp [rOk, rStep, isRev]
      · simp only [stkOkB, stkStep, hL]
        simp
      · simp only [stkAfter, List.foldl_cons, stkStep, hL]
        simp
      · intro hcap y hy
        simp only [List.mem_cons] at hy
        unfold msCap at hcap ⊢
        rcases hy with rfl | rfl | rfl | rfl | rfl | rfl | hy
        · simp only [hL]; omega
        · simp only [hL]; omega
        · simp only [hL]; omega
        · simp only [hL]; omega
        · simp only [hL]; omega
        · simp only [hL]; omega
        · exact absurd hy (List.not_mem_nil y)
      · intro hcap
        unfold msCap at hcap ⊢
        simp only [hL]; omega
      · intro prev
        simp [wafAux]
    · -- replay branch: read without delete, advance, inner forward sweep,
      -- then the adjoint step
      rename_i hcp
      split at h
      · exact absurd h (by simp)
      · rename_i adv hadv
        split at h
        · exact absurd h (by simp)
        · rename_i hgt
          split at h
          · exact absurd h (by simp)
          · rename_i ys2 s3 hsweep
            obtain ⟨hF, hr3, hn3, hcr, hce, hrOk, hstk, hlenEq, hbound, hbfin, hwaf⟩ :=
              msForwardSweep_spec _ _ _ _ hsweep
            simp only [msAdjoint, Except.ok.injEq, Prod.mk.injEq] at h
            obtain ⟨hys, hs'⟩ := h
            subst hys; subst hs'
            simp only at hF hr3 hn3 hrOk hstk hlenEq hbound hbfin
            obtain ⟨hFmx, hFir, hFid, hFst, hFkb, hFtj, hFex⟩ := hF
            refine ⟨?_, by simp [hr3], by simp [hn3, hr3]; omega, ?_, ?_, ?_, ?_, ?_,
              ?_, ?_, ?_⟩
            · unfold msFieldsEq at *
              simp only [hFmx, hFir, hFid, hFst, hFkb, hFtj, hFex]
              simp
            · simp only [countRev, List.countP_cons, List.countP_append] at hcr ⊢
              rw [hcr]
              simp [isRev]
            · simp only [countEndRev, List.countP_cons, List.countP_append] at hce ⊢
              rw [hce]
              simp [isEndRev]
            · have hra : rAfter s.r ys2 = s.r := by
                rw [rAfter_eq, hcr]; omega
              simp only [rOk, rStep, isRev, beq_self_eq_true, Bool.true_and, rOk_append,
                hra, hrOk, hr3, Bool.and_true]
              simp [rOk, rStep, isRev]
              exact ⟨hrOk, hra.symm⟩
            · simp only [stkOkB, stkStep, beq_self_eq_true, Bool.true_and, stkOkB_append,
                hstk, Bool.true_and, Bool.and_true]
              simp [hlenEq]
            · simp only [stkAfter_cons, stkAfter_append, stkAfter_nil]
              simp only [stkStep]
              simp [hlenEq]
            · intro hcap y hy
              simp only [List.mem_cons, List.mem_append] at hy
              have hcap2 : msCap s = s.snapshots_in_ram + s.snapshots_on_disk := rfl
              rcases hy with rfl | rfl | rfl | rfl | rfl | hy | hy
              · exact hcap
              · exact hcap
              · exact hcap
              · exact hcap
              · exact hcap
              · have := hbound (by unfold msCap; simpa using hcap) y hy
                unfold msCap at this ⊢
                simpa using this
              · have hfin := hbfin (by unfold msCap; simpa using hcap)
                unfold msCap at hfin ⊢
                rcases hy with rfl | rfl | rfl | rfl | hy
                · simpa using hfin
                · simpa using hfin
                · simpa using hfin
                · simpa using hfin
                · exact absurd hy (List.not_mem_nil y)
            · intro hcap
              have hfin := hbfin (by unfold msCap; simpa using hcap)
              unfold msCap at hfin ⊢
              simpa using hfin
            · intro prev
              simp only [List.map_cons, List.map_append, wafAux]
              rw [wafAux_append]
              simp only [Bool.true_and]
              rw [hwaf]
              simp [wafAux]

/-- Combined invariants of the reverse loop: on successful exit `r` has
reached `max_n`, having increased by exactly one per emitted `Reverse`. -/
theorem msReverseLoop_spec : ∀ (fuel : Nat) (s : MSState) (ys : List Yield) (s' : MSState),
    msReverseLoop fuel s = .ok (ys, s') →
    msFieldsEq s s' ∧
    s'.r = s.r + countRev ys ∧
    s.max_n ≤ s'.r ∧
    countEndRev ys = 0 ∧
    rOk s.r ys = true ∧
    stkOkB s.snapshots.length ys = true ∧
    s'.snapshots.length = stkAfter s.snapshots.length ys ∧
    (s.snapshots.length ≤ msCap s → ∀ y ∈ ys, y.stk ≤ msCap s) ∧
    (s.snapshots.length ≤ msCap s → s'.snapshots.length ≤ msCap s) ∧
    (∀ prev, wafAux prev (ys.map (fun y => y.act)) = true) := by
  intro fuel
  induction fuel with
  | zero => intro s ys s' h; exact absurd h (by simp [msReverseLoop])
  | succ fuel ih =>
    intro s ys s' h
    rw [msReverseLoop] at h
    split at h
    · rename_i hlt
      split at h
      · exact absurd h (by simp)
      · rename_i ysb s1 hbody
        split at h
        · exact absurd h (by simp)
        · rename_i ys2 s2 hrec
          simp only [Except.ok.injEq, Prod.mk.injEq] at h
          obtain ⟨hys, hs'⟩ := h
          subst hys; subst hs'
          obtain ⟨hFb, hrb, hnb, hcrb, hceb, hrOkb, hstkb, hlenb, hboundb, hbfinb,
            hwafb⟩ := msReverseBody_spec _ _ _ hlt hbody
          obtain ⟨hFl, hrl, hmaxl, hcel, hrOkl, hstkl, hlenl, hboundl, hbfinl, hwafl⟩ :=
            ih _ _ _ hrec
          have hcap1 : msCap s1 = msCap s := msCap_eq_of_fieldsEq hFb
          have hmx1 : s1.max_n = s.max_n := hFb.1
          refine ⟨msFieldsEq_trans hFb hFl, ?_, by omega, ?_, ?_, ?_, ?_, ?_, ?_, ?_⟩
          · rw [countRev_append]; omega
          · rw [countEndRev_append]; omega
          · rw [rOk_append, hrOkb]
            have : rAfter s.r ysb = s1.r := by rw [rAfter_eq]; omega
            rw [this, hrOkl]
            rfl
          · rw [stkOkB_append, hstkb]
            rw [← hlenb, hstkl]
            rfl
          · rw [stkAfter_append, ← hlenb, hlenl]
          · intro hcap y hy
            rw [List.mem_append] at hy
            rcases hy with hy | hy
            · exact hboundb hcap y hy
            · have := hboundl (by rw [hcap1]; exact hbfinb hcap) y hy
              rw [hcap1] at this
              exact this
          · intro hcap
            have := hbfinl (by rw [hcap1]; exact hbfinb hcap)
            rw [hcap1] at this
            exact this
          · intro prev
            rw [List.map_append, wafAux_append, hwafb, hwafl]
            rfl
    · simp only [Except.ok.injEq, Prod.mk.injEq] at h
      obtain ⟨hys, hs'⟩ := h
      subst hys; subst hs'
      refine ⟨msFieldsEq_refl s, by simp [countRev], by omega, rfl, rfl, rfl, rfl,
        fun _ y hy => absurd hy (List.not_mem_nil y), fun hc => hc, fun prev => rfl⟩

/-- Combined invariants of a complete multistage run (from a freshly
constructed schedule, `r = 0`): the reverse counter, consistently recorded
at every yield, increases by one exactly at each of the `max_n` `Reverse`
actions; there is exactly one `EndReverse`, which is the final action,
carries `exhausted = True`, is yielded with `r = max_n` and with an empty
snapshot stack; the stack-length ghost record is consistent and never
exceeds the capacity; and every `Write n` immediately follows a `Forward`
starting at `n`. -/
theorem msRun_spec (s : MSState) (ys : List Yield) (s' : MSState) (hr0 : s.r = 0)
    (h : msRun s = .ok (ys, s')) :
    countRev ys = s.max_n ∧
    countEndRev ys = 1 ∧
    ys.getLast? = some ⟨.EndReverse true, s.max_n, 0⟩ ∧
    rOk 0 ys = true ∧
    rAfter 0 ys = s.max_n ∧
    s'.r = s.max_n ∧
    1 ≤ s.max_n ∧
    msIsExhausted s' = true ∧
    s'.snapshots.length = 0 ∧
    stkOkB s.snapshots.length ys = true ∧
    (s.snapshots.length ≤ msCap s → ∀ y ∈ ys, y.stk ≤ msCap s) ∧
    (∀ prev, wafAux prev (ys.map (fun y => y.act)) = true) := by
  rw [msRun, msForwardLoop0_eq _ _ hr0] at h
  split at h
  · exact absurd h (by simp)
  · rename_i ys1 s1 hfwd
    dsimp only at h
    split at h
    · exact absurd h (by simp)
    · rename_i ys3 s4 hloop
      split at h
      · exact absurd h (by simp)
      · rename_i hr4
        split at h
        · exact absurd h (by simp)
        · rename_i hlen4
          simp only [Except.ok.injEq, Prod.mk.injEq] at h
          obtain ⟨hys, hs'⟩ := h
          subst hys; subst hs'
          rw [Decidable.not_not] at hr4 hlen4
          obtain ⟨hF1, hr1, hn1, hcr1, hce1, hrOk1, hstk1, hlen1, hbound1, hbfin1,
            hwaf1⟩ := msForwardSweep_spec _ _ _ _ hfwd
          obtain ⟨hFl, hrl, hmaxl, hcel, hrOkl, hstkl, hlenl, hboundl, hbfinl, hwafl⟩ :=
            msReverseLoop_spec _ _ _ _ hloop
          rw [hr0] at hrOk1 hr1
          simp only at hFl hrl hrOkl hstkl hlenl hboundl hbfinl
          have hmx4 : s4.max_n = s.max_n := by rw [hFl.1, hF1.1]
          have hr4' : s4.r = s.max_n := by rw [hr4, hmx4]
          have hr1' : s1.r = 0 := hr1
          rw [hr1'] at hrl hrOkl
          have hcrl : countRev ys3 + 1 = s.max_n := by omega
          have hmax1 : 1 ≤ s.max_n := by omega
          have hcap1 : msCap s1 = msCap s := msCap_eq_of_fieldsEq hF1
          have hra1 : rAfter 0 ys1 = 0 := by rw [rAfter_eq, hcr1]
          have hra3 : rAfter 1 ys3 = s.max_n := by rw [rAfter_eq]; omega
          have hone : rOk 1 ys3 = true := by simpa using hrOkl
          have hml : msCap { max_n := s1.max_n, snapshots_in_ram := s1.snapshots_in_ram, snapshots_on_disk := s1.snapshots_on_disk, storage := s1.storage, n := s1.n + 1, r := s1.r + 1, snapshots := s1.snapshots, exhausted := s1.exhausted, keep_block_0_ics := s1.keep_block_0_ics, trajectory := s1.trajectory } = msCap s := by
            show s1.snapshots_in_ram + s1.snapshots_on_disk = s.snapshots_in_ram + s.snapshots_on_disk
            rw [hF1.2.1, hF1.2.2.1]
          have hblk : rOk 0 [⟨.Configure (s1.keep_block_0_ics && (s1.n == 0)) true,
              s1.r, s1.snapshots.length⟩,
              ⟨.Forward (s1.n + 1 - 1) (s1.n + 1), s1.r, s1.snapshots.length⟩,
              ⟨.EndForward, s1.r, s1.snapshots.length⟩,
              ⟨.Reverse (s1.n + 1) (s1.n + 1 - 1), s1.r + 1, s1.snapshots.length⟩,
              ⟨.Clear (!s1.keep_block_0_ics || (s1.n + 1 != 1)) true, s1.r + 1,
                s1.snapshots.length⟩] = true := by
            simp [rOk, rStep, isRev, hr1']
          have hrab : rAfter 0 [⟨.Configure (s1.keep_block_0_ics && (s1.n == 0)) true,
              s1.r, s1.snapshots.length⟩,
              ⟨.Forward (s1.n + 1 - 1) (s1.n + 1), s1.r, s1.snapshots.length⟩,
              ⟨.EndForward, s1.r, s1.snapshots.length⟩,
              ⟨.Reverse (s1.n + 1) (s1.n + 1 - 1), s1.r + 1, s1.snapshots.length⟩,
              ⟨.Clear (!s1.keep_block_0_ics || (s1.n + 1 != 1)) true, s1.r + 1,
                s1.snapshots.length⟩] = 1 := by
            simp [rAfter_cons, rAfter_nil, rStep, isRev]
          have hsblk : stkOkB s1.snapshots.length [⟨.Configure (s1.keep_block_0_ics
              && (s1.n == 0)) true, s1.r, s1.snapshots.length⟩,
              ⟨.Forward (s1.n + 1 - 1) (s1.n + 1), s1.r, s1.snapshots.length⟩,
              ⟨.EndForward, s1.r, s1.snapshots.length⟩,
              ⟨.Reverse (s1.n + 1) (s1.n + 1 - 1), s1.r + 1, s1.snapshots.length⟩,
              ⟨.Clear (!s1.keep_block_0_ics || (s1.n + 1 != 1)) true, s1.r + 1,
                s1.snapshots.length⟩] = true := by
            simp [stkOkB, stkStep]
          have hsab : stkAfter s1.snapshots.length [⟨.Configure (s1.keep_block_0_ics
              && (s1.n == 0)) true, s1.r, s1.snapshots.length⟩,
              ⟨.Forward (s1.n + 1 - 1) (s1.n + 1), s1.r, s1.snapshots.length⟩,
              ⟨.EndForward, s1.r, s1.snapshots.length⟩,
              ⟨.Reverse (s1.n + 1) (s1.n + 1 - 1), s1.r + 1, s1.snapshots.length⟩,
              ⟨.Clear (!s1.keep_block_0_ics || (s1.n + 1 != 1)) true, s1.r + 1,
                s1.snapshots.length⟩] = s1.snapshots.length := by
            simp [stkAfter_cons, stkAfter_nil, stkStep]
          refine ⟨?_, ?_, ?_, ?_, ?_, hr4', hmax1, rfl, hlen4, ?_, ?_, ?_⟩
          · have hcb : countRev [⟨.Configure (s1.keep_block_0_ics && (s1.n == 0)) true,
              s1.r, s1.snapshots.length⟩,
              ⟨.Forward (s1.n + 1 - 1) (s1.n + 1), s1.r, s1.snapshots.length⟩,
              ⟨.EndForward, s1.r, s1.snapshots.length⟩,
              ⟨.Reverse (s1.n + 1) (s1.n + 1 - 1), s1.r + 1, s1.snapshots.length⟩,
              ⟨.Clear (!s1.keep_block_0_ics || (s1.n + 1 != 1)) true, s1.r + 1,
                s1.snapshots.length⟩] = 1 := by
              simp [countRev, List.countP_cons, List.countP_nil, isRev]
            have hcend : countRev [(⟨.EndReverse true, s4.r, s4.snapshots.length⟩ : Yield)] = 0 := by
              simp [countRev, List.countP_cons, List.countP_nil, isRev]
            rw [countRev_append, countRev_append, countRev_append, hcr1, hcb, hcend]
            omega
          · have hcb : countEndRev [⟨.Configure (s1.keep_block_0_ics && (s1.n == 0)) true,
              s1.r, s1.snapshots.length⟩,
              ⟨.Forward (s1.n + 1 - 1) (s1.n + 1), s1.r, s1.snapshots.length⟩,
              ⟨.EndForward, s1.r, s1.snapshots.length⟩,
              ⟨.Reverse (s1.n + 1) (s1.n + 1 - 1), s1.r + 1, s1.snapshots.length⟩,
              ⟨.Clear (!s1.keep_block_0_ics || (s1.n + 1 != 1)) true, s1.r + 1,
                s1.snapshots.length⟩] = 0 := by
              simp [countEndRev, List.countP_cons, List.countP_nil, isEndRev]
            have hcend : countEndRev [(⟨.EndReverse true, s4.r, s4.snapshots.length⟩ : Yield)] = 1 := by
              simp [countEndRev, List.countP_cons, List.countP_nil, isEndRev]
            rw [countEndRev_append, countEndRev_append, countEndRev_append, hce1, hcb,
              hcend, hcel]
          · rw [← List.append_assoc, ← List.append_assoc, List.getLast?_concat]
            simp [hr4', hlen4]
          · rw [rOk_append, hrOk1, hra1, rOk_append, hblk, hrab, rOk_append, hone, hra3]
            simp [rOk, rStep, isRev, hr4']
          · rw [rAfter_append, hra1, rAfter_append, hrab, rAfter_append, hra3]
            simp [rAfter_cons, rAfter_nil, rStep, isRev]
          · rw [stkOkB_append, hstk1, ← hlen1, stkOkB_append, hsblk, hsab, stkOkB_append,
              hstkl, ← hlenl]
            simp [stkOkB, stkStep]
          · intro hcap y hy
            rw [List.mem_append] at hy
            rcases hy with hy | hy
            · exact hbound1 hcap y hy
            · rw [List.mem_append] at hy
              rcases hy with hy | hy
              · simp only [List.mem_cons] at hy
                rcases hy with rfl | rfl | rfl | rfl | rfl | hy
                · simpa using hbfin1 hcap
                · simpa using hbfin1 hcap
                · simpa using hbfin1 hcap
                · simpa using hbfin1 hcap
                · simpa using hbfin1 hcap
                · exact absurd hy (List.not_mem_nil y)
              · rw [List.mem_append] at hy
                rcases hy with hy | hy
                · have := hboundl (by rw [hml]; exact hbfin1 hcap) y hy
                  rw [hml] at this
                  exact this
                · simp only [List.mem_singleton] at hy
                  subst hy
                  simp [hlen4]
          · intro prev
            rw [List.map_append, wafAux_append, hwaf1]
            simp only [List.map_append, List.map_cons, List.map_nil]
            rw [wafAux_append, wafAux_append, hwafl]
            simp [wafAux]

/-- In a trace whose `r` ghost record is consistent from `r0`, the number of
`Reverse` yields recorded with `r = k` is one when `r0 < k ≤ rAfter r0 ys`
and zero otherwise: the reverse counter attains each value exactly once. -/
theorem rOk_count_at : ∀ (ys : List Yield) (r0 : Nat), rOk r0 ys = true → ∀ k,
    (ys.filter (fun y => isRev y.act && (y.r == k))).length
      = if r0 < k ∧ k ≤ rAfter r0 ys then 1 else 0 := by
  intro ys
  induction ys with
  | nil =>
    intro r0 _ k
    rw [rAfter_nil]
    have : ¬ (r0 < k ∧ k ≤ r0) := by omega
    simp [this]
  | cons y ys ih =>
    intro r0 h k
    simp only [rOk, Bool.and_eq_true, beq_iff_eq] at h
    obtain ⟨hy, hrest⟩ := h
    rw [rAfter_cons]
    have hge : rStep r0 y.act + countRev ys = rAfter (rStep r0 y.act) ys := by
      rw [rAfter_eq]
    by_cases hrev : isRev y.act = true
    · have hstep : rStep r0 y.act = r0 + 1 := by simp [rStep, hrev]
      rw [hstep] at hy hrest hge ⊢
      rw [List.filter_cons]
      have hih := ih (r0 + 1) hrest k
      by_cases hk : k = r0 + 1
      · subst hk
        simp only [hrev, hy, beq_self_eq_true, Bool.and_self, if_pos]
        rw [List.length_cons, hih]
        have hc1 : ¬ (r0 + 1 < r0 + 1 ∧ r0 + 1 ≤ rAfter (r0 + 1) ys) := by omega
        have hc2 : r0 < r0 + 1 ∧ r0 + 1 ≤ rAfter (r0 + 1) ys := by omega
        simp [hc1, hc2]
      · have hne : (isRev y.act && (y.r == k)) = false := by
          simp [hrev, hy]
          omega
        rw [hne]
        simp only [Bool.false_eq_true, if_false]
        rw [hih]
        have hiff : (r0 + 1 < k ∧ k ≤ rAfter (r0 + 1) ys)
            ↔ (r0 < k ∧ k ≤ rAfter (r0 + 1) ys) := by
          constructor <;> intro hh <;> exact ⟨by omega, hh.2⟩
        exact if_congr hiff rfl rfl
    · have hstep : rStep r0 y.act = r0 := by simp [rStep, hrev]
      rw [hstep] at hy hrest hge ⊢
      rw [List.filter_cons]
      have hne : (isRev y.act && (y.r == k)) = false := by
        simp [hrev]
      rw [hne]
      simp only [Bool.false_eq_true, if_false]
      exact ih r0 hrest k

/-!
## Specification-side weight accumulation (for the tier allocator claim)
-/

/-- One step of the weight accumulation exactly as the spec words it: add
`write_weight` at the slot of every `Write` and `read_weight` (plus
`delete_weight` when the read frees the slot) at the slot of every `Read`,
the slot being the snapshot's position on the schedule's snapshot stack at
the moment of the operation (recovered here from the `stk` ghost record:
after a `Write` or a non-deleting `Read` the operated slot is the top,
index `stk - 1`; a deleting `Read` pops first, leaving its slot at index
`stk`). -/
def specWeightStep (write_weight read_weight delete_weight : ℚ) (w : List ℚ)
    (y : Yield) : List ℚ :=
  match y.act with
  | .Write _ _ => bump w (y.stk - 1) write_weight
  | .Read _ _ true => bump (bump w y.stk read_weight) y.stk delete_weight
  | .Read _ _ false => bump w (y.stk - 1) read_weight
  | _ => w

/-- Weight accumulation over a whole trace, per the spec's wording. -/
def specWeights (write_weight read_weight delete_weight : ℚ) (w0 : List ℚ)
    (ys : List Yield) : List ℚ :=
  ys.foldl (specWeightStep write_weight read_weight delete_weight) w0

/-- The counter-based fold of `allocate_snapshots` coincides with the
spec-side stack-position accumulation on any trace with a consistent stack
record: the running counter `snapshot_i` is always one less than the current
stack length. -/
theorem allocFold_eq (snaps : Nat) (ww rw dw : ℚ) :
    ∀ (ys : List Yield) (k : Nat) (w : List ℚ) (res : Int × List ℚ),
    stkOkB k ys = true →
    ys.foldlM (fun st y => allocStep snaps ww rw dw st y.act) ((k : Int) - 1, w)
      = .ok res →
    res.1 = (stkAfter k ys : Int) - 1 ∧ res.2 = specWeights ww rw dw w ys := by
  intro ys
  induction ys with
  | nil =>
    intro k w res _ h
    simp only [List.foldlM_nil, pure, Except.pure, Except.ok.injEq] at h
    subst h
    exact ⟨rfl, rfl⟩
  | cons y ys ih =>
    intro k w res hstk h
    obtain ⟨a, yr, ystk⟩ := y
    simp only [stkOkB, Bool.and_eq_true, beq_iff_eq] at hstk
    obtain ⟨hy, hrest⟩ := hstk
    rw [List.foldlM_cons] at h
    rw [stkAfter_cons]
    unfold specWeights
    rw [List.foldl_cons]
    cases a with
    | Read n st del =>
      cases del with
      | true =>
        simp only [stkStep] at hy hrest ⊢
        simp only [allocStep] at h
        split at h
        · rename_i hineg
          simp only [bind, Except.bind] at h
          exact absurd h (by simp)
        · rename_i hineg
          have hk1 : 1 ≤ k := by omega
          simp only [if_pos rfl, bind, Except.bind] at h
          have htn : ((k : Int) - 1).toNat = k - 1 := by omega
          have harg : (k : Int) - 1 - 1 = ((k - 1 : Nat) : Int) - 1 := by omega
          rw [htn, harg] at h
          obtain ⟨h1, h2⟩ := ih (k - 1) _ res hrest h
          refine ⟨h1, ?_⟩
          rw [h2]
          simp only [specWeightStep, hy]
          rfl
      | false =>
        simp only [stkStep] at hy hrest ⊢
        simp only [allocStep] at h
        split at h
        · rename_i hineg
          simp only [bind, Except.bind] at h
          exact absurd h (by simp)
        · rename_i hineg
          have hk1 : 1 ≤ k := by omega
          simp only [Bool.false_eq_true, if_false, bind, Except.bind] at h
          have htn : ((k : Int) - 1).toNat = k - 1 := by omega
          rw [htn] at h
          obtain ⟨h1, h2⟩ := ih k _ res hrest h
          refine ⟨h1, ?_⟩
          rw [h2]
          simp only [specWeightStep, hy]
          rfl
    | Write n st =>
      simp only [stkStep] at hy hrest ⊢
      simp only [allocStep] at h
      split at h
      · rename_i hge
        simp only [bind, Except.bind] at h
        exact absurd h (by simp)
      · rename_i hge
        simp only [bind, Except.bind] at h
        have harg : (k : Int) - 1 + 1 = ((k + 1 : Nat) : Int) - 1 := by omega
        have htn : ((k : Int) - 1 + 1).toNat = k := by omega
        rw [htn, harg] at h
        obtain ⟨h1, h2⟩ := ih (k + 1) _ res hrest h
        refine ⟨h1, ?_⟩
        rw [h2]
        simp only [specWeightStep, hy]
        simp [specWeights]
    | Configure a b =>
      simp only [stkStep] at hy hrest ⊢
      simp only [allocStep, bind, Except.bind] at h
      obtain ⟨h1, h2⟩ := ih k _ res hrest h
      exact ⟨h1, by rw [h2]; simp only [specWeightStep]; rfl⟩
    | Forward a b =>
      simp only [stkStep] at hy hrest ⊢
      simp only [allocStep, bind, Except.bind] at h
      obtain ⟨h1, h2⟩ := ih k _ res hrest h
      exact ⟨h1, by rw [h2]; simp only [specWeightStep]; rfl⟩
    | Reverse a b =>
      simp only [stkStep] at hy hrest ⊢
      simp only [allocStep, bind, Except.bind] at h
      obtain ⟨h1, h2⟩ := ih k _ res hrest h
      exact ⟨h1, by rw [h2]; simp only [specWeightStep]; rfl⟩
    | Clear a b =>
      simp only [stkStep] at hy hrest ⊢
      simp only [allocStep, bind, Except.bind] at h
      obtain ⟨h1, h2⟩ := ih k _ res hrest h
      exact ⟨h1, by rw [h2]; simp only [specWeightStep]; rfl⟩
    | EndForward =>
      simp only [stkStep] at hy hrest ⊢
      simp only [allocStep, bind, Except.bind] at h
      obtain ⟨h1, h2⟩ := ih k _ res hrest h
      exact ⟨h1, by rw [h2]; simp only [specWeightStep]; rfl⟩
    | EndReverse e =>
      simp only [stkStep] at hy hrest ⊢
      simp only [allocStep, bind, Except.bind] at h
      obtain ⟨h1, h2⟩ := ih k _ res hrest h
      exact ⟨h1, by rw [h2]; simp only [specWeightStep]; rfl⟩

/-!
## Properties of the stable descending sort used by the allocator
-/

/-- Stability ordering target: strictly greater weight first, ties broken by
the original (strictly smaller) slot index. -/
def slotBefore (a b : Nat × ℚ) : Prop := b.2 < a.2 ∨ (a.2 = b.2 ∧ a.1 < b.1)

theorem insertDesc_mem (x z : Nat × ℚ) : ∀ (l : List (Nat × ℚ)),
    z ∈ insertDesc x l ↔ z = x ∨ z ∈ l := by
  intro l
  induction l with
  | nil => simp [insertDesc]
  | cons y ys ih =>
    unfold insertDesc
    split
    · simp [List.mem_cons]
    · simp only [List.mem_cons, ih]
      constructor
      · rintro (rfl | h); exact Or.inr (Or.inl rfl)
        rcases h with rfl | h
        · exact Or.inl rfl
        · exact Or.inr (Or.inr h)
      · rintro (rfl | h); exact Or.inr (Or.inl rfl)
        rcases h with rfl | h
        · exact Or.inl rfl
        · exact Or.inr (Or.inr h)

theorem insertDesc_perm (x : Nat × ℚ) : ∀ (l : List (Nat × ℚ)),
    List.Perm (insertDesc x l) (x :: l) := by
  intro l
  induction l with
  | nil => simp [insertDesc]
  | cons y ys ih =>
    unfold insertDesc
    split
    · exact List.Perm.refl _
    · exact (ih.cons y).trans (List.Perm.swap x y ys)

theorem sortDesc_perm_aux : ∀ (l acc : List (Nat × ℚ)),
    List.Perm (l.foldl (fun acc x => insertDesc x acc) acc) (acc ++ l) := by
  intro l
  induction l with
  | nil => intro acc; simp
  | cons x xs ih =>
    intro acc
    rw [List.foldl_cons]
    refine (ih (insertDesc x acc)).trans ?_
    refine ((insertDesc_perm x acc).append_right xs).trans ?_
    simpa using (@List.perm_middle _ x acc xs).symm

theorem sortDesc_perm (l : List (Nat × ℚ)) : List.Perm (sortDesc l) l := by
  simpa using sortDesc_perm_aux l []

theorem insertDesc_all_eq (x : Nat × ℚ) : ∀ (l : List (Nat × ℚ)),
    (∀ y ∈ l, ¬ (y.2 < x.2)) → insertDesc x l = l ++ [x] := by
  intro l
  induction l with
  | nil => intro _; rfl
  | cons y ys ih =>
    intro h
    unfold insertDesc
    rw [if_neg (h y (List.mem_cons_self y ys))]
    rw [ih (fun z hz => h z (List.mem_cons_of_mem y hz))]
    rfl

theorem sortDesc_all_eq_aux (c : ℚ) : ∀ (l acc : List (Nat × ℚ)),
    (∀ p ∈ l, p.2 = c) → (∀ p ∈ acc, p.2 = c) →
    l.foldl (fun acc x => insertDesc x acc) acc = acc ++ l := by
  intro l
  induction l with
  | nil => intro acc _ _; simp
  | cons x xs ih =>
    intro acc hl hacc
    rw [List.foldl_cons]
    rw [insertDesc_all_eq x acc ?hna]
    case hna =>
      intro y hy
      rw [hacc y hy, hl x (List.mem_cons_self x xs)]
      exact lt_irrefl c
    rw [ih (acc ++ [x]) (fun p hp => hl p (List.mem_cons_of_mem x hp)) ?hacc2]
    case hacc2 =>
      intro p hp
      rw [List.mem_append] at hp
      rcases hp with hp | hp
      · exact hacc p hp
      · rw [List.mem_singleton] at hp
        subst hp
        exact hl p (List.mem_cons_self p xs)
    simp

/-- When every accumulated weight is equal, the stable descending sort is
the identity. -/
theorem sortDesc_all_eq (c : ℚ) (l : List (Nat × ℚ)) (h : ∀ p ∈ l, p.2 = c) :
    sortDesc l = l := by
  have := sortDesc_all_eq_aux c l [] h (by intro p hp; exact absurd hp (List.not_mem_nil p))
  simpa [sortDesc] using this

theorem insertDesc_pairwise (x : Nat × ℚ) : ∀ (l : List (Nat × ℚ)),
    l.Pairwise slotBefore → (∀ y ∈ l, y.1 < x.1) →
    (insertDesc x l).Pairwise slotBefore := by
  intro l
  induction l with
  | nil => intro _ _; simp [insertDesc]
  | cons y ys ih =>
    intro hp hidx
    rw [List.pairwise_cons] at hp
    obtain ⟨hy, hys⟩ := hp
    unfold insertDesc
    split
    · rename_i hgt
      rw [List.pairwise_cons]
      refine ⟨?_, by rw [List.pairwise_cons]; exact ⟨hy, hys⟩⟩
      intro z hz
      rw [List.mem_cons] at hz
      rcases hz with rfl | hz
      · exact Or.inl hgt
      · rcases hy z hz with hlt | ⟨heq, _⟩
        · exact Or.inl (lt_trans hlt hgt)
        · exact Or.inl (heq ▸ hgt)
    · rename_i hng
      rw [List.pairwise_cons]
      constructor
      · intro z hz
        rw [insertDesc_mem] at hz
        rcases hz with rfl | hz
        · rcases lt_or_eq_of_le (le_of_not_lt hng) with hlt | heq
          · exact Or.inl hlt
          · exact Or.inr ⟨heq.symm, hidx y (List.mem_cons_self y ys)⟩
        · exact hy z hz
      · exact ih hys (fun z hz => hidx z (List.mem_cons_of_mem y hz))

theorem sortDesc_pairwise_aux : ∀ (l acc : List (Nat × ℚ)),
    acc.Pairwise slotBefore →
    (∀ y ∈ acc, ∀ x ∈ l, y.1 < x.1) →
    l.Pairwise (fun a b => a.1 < b.1) →
    (l.foldl (fun acc x => insertDesc x acc) acc).Pairwise slotBefore := by
  intro l
  induction l with
  | nil => intro acc h _ _; simpa using h
  | cons x xs ih =>
    intro acc hacc hcross hl
    rw [List.pairwise_cons] at hl
    obtain ⟨hx, hxs⟩ := hl
    rw [List.foldl_cons]
    refine ih (insertDesc x acc) ?_ ?_ hxs
    · exact insertDesc_pairwise x acc hacc
        (fun y hy => hcross y hy x (List.mem_cons_self x xs))
    · intro y hy z hz
      rw [insertDesc_mem] at hy
      rcases hy with rfl | hy
      · exact hx z hz
      · exact hcross y hy z (List.mem_cons_of_mem x hz)

/-- The stable descending sort of a list with strictly increasing indices is
ordered by `slotBefore`: weight strictly descending, ties in original index
order. -/
theorem sortDesc_pairwise (l : List (Nat × ℚ))
    (h : l.Pairwise (fun a b => a.1 < b.1)) :
    (sortDesc l).Pairwise slotBefore := by
  exact sortDesc_pairwise_aux l [] (by simp)
    (by intro y hy; exact absurd hy (List.not_mem_nil y)) h

theorem enumWeights_pairwise (w : List ℚ) :
    (enumWeights w).Pairwise (fun a b => a.1 < b.1) := by
  rw [List.pairwise_iff_get]
  intro i j hij
  unfold enumWeights at i j ⊢
  rw [List.get_zip, List.get_zip]
  simp only [List.get_range]
  exact hij

theorem enumWeights_mem (w : List ℚ) (p : Nat × ℚ) (h : p ∈ enumWeights w) :
    p.1 < w.length ∧ p.2 = w.getD p.1 0 := by
  rw [List.mem_iff_get] at h
  obtain ⟨k, hk⟩ := h
  unfold enumWeights at k hk
  rw [List.get_zip] at hk
  simp only [List.get_range] at hk
  have hk1 : p.1 = (k : Nat) := by rw [← hk]
  have hklen : (k : Nat) < w.length := by
    have := k.isLt
    simpa using this
  constructor
  · omega
  · rw [← hk]
    simp only
    rw [List.getD_eq_get?, List.get?_eq_get (by simpa using hklen)]
    simp

theorem enumWeights_get_mem (w : List ℚ) (j : Nat) (hj : j < w.length) :
    (j, w.getD j 0) ∈ enumWeights w := by
  rw [List.mem_iff_get]
  refine ⟨⟨j, by simpa [enumWeights] using hj⟩, ?_⟩
  unfold enumWeights
  rw [List.get_zip]
  simp only [List.get_range]
  rw [List.getD_eq_get?, List.get?_eq_get hj]
  simp

theorem allocFromWeights_ram_iff (sr : Nat) (w : List ℚ) (i : Nat) (hi : i < w.length) :
    (allocFromWeights sr w).getD i ""
      = (if (((sortDesc (enumWeights w)).take sr).map (fun p => p.1)).contains i
          then "RAM" else "disk") := by
  unfold allocFromWeights
  rw [List.getD_eq_get?, List.get?_eq_get (by simpa using hi)]
  rw [List.get_map]
  simp [List.get_range]

/-- Tie-break characterisation: a slot allocated to RAM beats every slot
allocated to disk, either by strictly greater accumulated weight or, at
equal weight, by smaller original index (stability). -/
theorem allocFromWeights_pair (sr : Nat) (w : List ℚ) (i j : Nat)
    (hi : i < w.length) (hj : j < w.length)
    (hri : (allocFromWeights sr w).getD i "" = "RAM")
    (hrj : (allocFromWeights sr w).getD j "" = "disk") :
    w.getD j 0 < w.getD i 0 ∨ (w.getD i 0 = w.getD j 0 ∧ i < j) := by
  rw [allocFromWeights_ram_iff sr w i hi] at hri
  rw [allocFromWeights_ram_iff sr w j hj] at hrj
  set sorted := sortDesc (enumWeights w) with hsorted
  have hmemi : i ∈ ((sorted.take sr).map (fun p => p.1)) := by
    by_contra hc
    rw [if_neg (by simpa using hc)] at hri
    exact absurd hri (by simp)
  have hmemj : ¬ j ∈ ((sorted.take sr).map (fun p => p.1)) := by
    intro hc
    rw [if_pos (by simpa using hc)] at hrj
    exact absurd hrj (by simp)
  have hperm : List.Perm sorted (enumWeights w) := sortDesc_perm _
  have hpw : sorted.Pairwise slotBefore :=
    sortDesc_pairwise _ (enumWeights_pairwise w)
  -- find pairs in the take and drop parts
  rw [List.mem_map] at hmemi
  obtain ⟨p, hpTake, hpFst⟩ := hmemi
  have hpMem : p ∈ enumWeights w := hperm.mem_iff.mp (List.mem_of_mem_take hpTake)
  obtain ⟨-, hpVal⟩ := enumWeights_mem w p hpMem
  have hjSorted : (j, w.getD j 0) ∈ sorted :=
    hperm.mem_iff.mpr (enumWeights_get_mem w j hj)
  have hjDrop : (j, w.getD j 0) ∈ sorted.drop sr := by
    have := (List.take_append_drop sr sorted) ▸ hjSorted
    rw [List.mem_append] at this
    rcases this with hq | hq
    · exact absurd (List.mem_map.mpr ⟨(j, w.getD j 0), hq, rfl⟩) hmemj
    · exact hq
  have hsplit := (List.pairwise_append.mp
    ((List.take_append_drop sr sorted) ▸ hpw)).2.2
  have hrel := hsplit p hpTake (j, w.getD j 0) hjDrop
  unfold slotBefore at hrel
  rcases hrel with hlt | ⟨heq, hidx⟩
  · left
    have h2 : w.getD j 0 < p.2 := by simpa using hlt
    rw [hpVal, hpFst] at h2
    exact h2
  · right
    have h2 : p.2 = w.getD j 0 := by simpa using heq
    rw [hpVal, hpFst] at h2
    refine ⟨h2, ?_⟩
    have h3 : p.1 < j := by simpa using hidx
    rw [hpFst] at h3
    exact h3

/-- With all weights equal, exactly the first `snapshots_in_ram` slots are
allocated to RAM. -/
theorem allocFromWeights_all_eq (sr : Nat) (w : List ℚ) (c : ℚ)
    (h : ∀ v ∈ w, v = c) :
    allocFromWeights sr w
      = (List.range w.length).map (fun i => if i < sr then "RAM" else "disk") := by
  unfold allocFromWeights
  have hsort : sortDesc (enumWeights w) = enumWeights w := by
    refine sortDesc_all_eq c _ ?_
    intro p hp
    exact h p.2 (List.of_mem_zip hp).2
  rw [hsort]
  have hchosen : ((enumWeights w).take sr).map (fun p => p.1)
      = List.range (min sr w.length) := by
    unfold enumWeights
    rw [List.map_take, List.map_fst_zip _ _ (by simp), List.take_range]
  rw [hchosen]
  refine List.map_congr_left ?_
  intro i hi
  rw [List.mem_range] at hi
  have hcont : (List.range (min sr w.length)).contains i = decide (i < min sr w.length) := by
    simp [List.contains_iff_exists_mem_beq, List.mem_range]
  rw [hcont]
  by_cases hc : i < sr
  · rw [if_pos hc]
    rw [if_pos (by simp; omega)]
  · rw [if_neg hc]
    rw [if_neg (by simp; omega)]

/-!
## The two-level schedule (source lines 323-464)
-/

/-- State of a `TwoLevelCheckpointSchedule`.  `max_n` is `none` until the
driver finalizes the forward sweep (base-class behaviour modelled from the
spec: counters start at `n = 0`, `r = 0` and `max_n` is discovered when the
forward sweep signals completion). -/
structure TLState where
  period : Nat
  binomial_snapshots : Nat
  binomial_storage : String
  keep_block_0_ics : Bool
  trajectory : String
  max_n : Option Nat
  n : Nat
  r : Nat
deriving DecidableEq

/-- The constructor `TwoLevelCheckpointSchedule.__init__` (source lines
324-351): validates `disk_period` and `binomial_storage` immediately.
`disk_period` is taken as an integer to model the Python `disk_period < 1`
check on arbitrary ints. -/
def tlInit (disk_period : Int) (binomial_snapshots : Nat)
    (binomial_storage : String) (keep_block_0_ics : Bool)
    (binomial_trajectory : String) : Except String TLState :=
  if disk_period < 1 then .error "disk_period must be positive"
  else if ¬ (binomial_storage = "RAM" ∨ binomial_storage = "disk") then
    .error "Invalid storage"
  else .ok { period := disk_period.toNat, binomial_snapshots := binomial_snapshots, binomial_storage := binomial_storage, keep_block_0_ics := keep_block_0_ics, trajectory := binomial_trajectory, max_n := none, n := 0, r := 0 }

/-- The method `is_exhausted` (source lines 460-461). -/
def tlIsExhausted (_ : TLState) : Bool := false

/-- The forward phase of `TwoLevelCheckpointSchedule.iter` (source lines
356-369), driven for `P` full periods after which the driver finalizes the
trajectory at `max_n = mN` (the driver's `finalize` call is modelled from
the spec; finalizing is permitted after a `Forward`, source line 366, and
takes effect at the loop-head test).  The `stk` ghost field is `0`: the
two-level schedule's binomial stack is local to each reverse period. -/
def tlForward (mN : Nat) : Nat → TLState → List Yield × TLState
  | 0, s => ([], { s with max_n := some mN })
  | P + 1, s =>
    let y1 : Yield := ⟨.Configure true false, s.r, 0⟩
    let n0 := s.n
    let n1 := n0 + s.period
    let s1 : TLState := { s with n := n1 }
    let y2 : Yield := ⟨.Forward n0 n1, s1.r, 0⟩
    let y3 : Yield := ⟨.Write n0 "disk", s1.r, 0⟩
    let y4 : Yield := ⟨.Clear true true, s1.r, 0⟩
    let rest := tlForward mN P s1
    (y1 :: y2 :: y3 :: y4 :: rest.1, rest.2)

/-- The per-step adjoint block of the two-level reverse sweep (source lines
440-447). -/
def tlAdjoint (snapshots : List Nat) (s : TLState) : List Yield × TLState :=
  let y1 : Yield := ⟨.Configure (s.keep_block_0_ics && (s.n == 0)) true, s.r, snapshots.length⟩
  let s1 : TLState := { s with n := s.n + 1 }
  let y2 : Yield := ⟨.Forward (s1.n - 1) s1.n, s1.r, snapshots.length⟩
  let s2 : TLState := { s1 with r := s1.r + 1 }
  let y3 : Yield := ⟨.Reverse s2.n (s2.n - 1), s2.r, snapshots.length⟩
  let y4 : Yield := ⟨.Clear (!s2.keep_block_0_ics || (s2.n != 1)) true, s2.r, snapshots.length⟩
  ([y1, y2, y3, y4], s2)

/-- The within-period forward progression writing inner binomial snapshots
(source lines 418-438, including the post-loop check). -/
def tlInnerFwd (mN : Nat) : Nat → List Nat → TLState → Except String (List Yield × List Nat × TLState)
  | 0, _, _ => .error "out of fuel"
  | fuel + 1, snapshots, s =>
    if s.n < mN - s.r - 1 then
      let y1 : Yield := ⟨.Configure true false, s.r, snapshots.length⟩
      let n_snapshots := s.binomial_snapshots + 1 - snapshots.length
      let n0 := s.n
      match n_advance (mN - s.r - n0) n_snapshots s.trajectory with
      | .error e => .error e
      | .ok adv =>
        let n1 := n0 + adv
        if ¬ (n1 > n0) then .error "assert n1 > n0"
        else
          let s1 : TLState := { s with n := n1 }
          let y2 : Yield := ⟨.Forward n0 n1, s1.r, snapshots.length⟩
          if snapshots.length ≥ s.binomial_snapshots + 1 then
            .error "Invalid checkpointing state"
          else
            let snapshots1 := snapshots ++ [n0]
            let y3 : Yield := ⟨.Write n0 s.binomial_storage, s1.r, snapshots1.length⟩
            let y4 : Yield := ⟨.Clear true true, s1.r, snapshots1.length⟩
            match tlInnerFwd mN fuel snapshots1 s1 with
            | .error e => .error e
            | .ok (ys, snapshots2, s2) => .ok (y1 :: y2 :: y3 :: y4 :: ys, snapshots2, s2)
    else
      if s.n ≠ mN - s.r - 1 then .error "Invalid checkpointing state"
      else .ok ([], snapshots, s)

/-- The within-period reverse loop `while self._r < self._max_n - n0s`
(source lines 385-447): restore the most recent snapshot (the period disk
snapshot at `n0s` is read with `delete=False`, inner binomial snapshots with
`delete=True` when popped), replay as needed, perform one adjoint step. -/
def tlInnerLoop (mN n0s : Nat) : Nat → List Nat → TLState → Except String (List Yield × List Nat × TLState)
  | 0, _, _ => .error "out of fuel"
  | fuel + 1, snapshots, s =>
    if s.r < mN - n0s then
      if snapshots.length = 0 then .error "Invalid checkpointing state"
      else
        let cp_n := snapshots.getLastD 0
        if cp_n = mN - s.r - 1 then
          let snapshots1 := snapshots.dropLast
          let s1 : TLState := { s with n := cp_n }
          let yR : Yield :=
            if cp_n = n0s then ⟨.Read cp_n "disk" false, s1.r, snapshots1.length⟩
            else ⟨.Read cp_n s.binomial_storage true, s1.r, snapshots1.length⟩
          let yC : Yield := ⟨.Clear true true, s1.r, snapshots1.length⟩
          let adj := tlAdjoint snapshots1 s1
          match tlInnerLoop mN n0s fuel snapshots1 adj.2 with
          | .error e => .error e
          | .ok (ys, snapshots2, s2) =>
            .ok (yR :: yC :: (adj.1 ++ ys), snapshots2, s2)
        else
          let s1 : TLState := { s with n := cp_n }
          let yR : Yield :=
            if cp_n = n0s then ⟨.Read cp_n "disk" false, s1.r, snapshots.length⟩
            else ⟨.Read cp_n s.binomial_storage false, s1.r, snapshots.length⟩
          let yC : Yield := ⟨.Clear true true, s1.r, snapshots.length⟩
          let yCfg : Yield := ⟨.Configure false false, s1.r, snapshots.length⟩
          let n_snapshots := s.binomial_snapshots + 1 - snapshots.length + 1
          let n0 := s1.n
          match n_advance (mN - s1.r - n0) n_snapshots s1.trajectory with
          | .error e => .error e
          | .ok adv =>
            let n1 := n0 + adv
            if ¬ (n1 > n0) then .error "assert n1 > n0"
            else
              let s2 : TLState := { s1 with n := n1 }
              let yF : Yield := ⟨.Forward n0 n1, s2.r, snapshots.length⟩
              let yC2 : Yield := ⟨.Clear true true, s2.r, snapshots.length⟩
              match tlInnerFwd mN (mN + 1) snapshots s2 with
              | .error e => .error e
              | .ok (ys, snapshots2, s3) =>
                let adj := tlAdjoint snapshots2 s3
                match tlInnerLoop mN n0s fuel snapshots2 adj.2 with
                | .error e => .error e
                | .ok (ys2, snapshots3, s4) =>
                  .ok (yR :: yC :: yCfg :: yF :: yC2 :: (ys ++ (adj.1 ++ ys2)),
                    snapshots3, s4)
    else .ok ([], snapshots, s)

/-- The per-period loop `while self._r < self._max_n` of the reverse sweep
(source lines 376-451, including the boundary and post-loop checks). -/
def tlPeriodLoop (mN : Nat) : Nat → TLState → Except String (List Yield × TLState)
  | 0, _ => .error "out of fuel"
  | fuel + 1, s =>
    if s.r < mN then
      let n := mN - s.r - 1
      let n0s := (n / s.period) * s.period
      let n1s := min (n0s + s.period) mN
      if s.r ≠ mN - n1s then .error "Invalid checkpointing state"
      else
        match tlInnerLoop mN n0s (mN + 1) [n0s] s with
        | .error e => .error e
        | .ok (ys, snapshots1, s1) =>
          if s1.r ≠ mN - n0s then .error "Invalid checkpointing state"
          else if snapshots1.length ≠ 0 then .error "Invalid checkpointing state"
          else
            match tlPeriodLoop mN fuel s1 with
            | .error e => .error e
            | .ok (ys2, s2) => .ok (ys ++ ys2, s2)
    else .ok ([], s)

/-- One complete reverse sweep (source lines 373-458): the per-period loop,
the final consistency check, the reset `r = 0` and `EndReverse(False)`. -/
def tlSweep (s : TLState) : Except String (List Yield × TLState) :=
  match s.max_n with
  | none => .error "Invalid checkpointing state"
  | some mN =>
    match tlPeriodLoop mN (mN + 1) s with
    | .error e => .error e
    | .ok (ys, s1) =>
      if s1.r ≠ mN then .error "Invalid checkpointing state"
      else
        let s2 : TLState := { s1 with r := 0 }
        .ok (ys ++ [⟨.EndReverse false, s2.r, 0⟩], s2)

/-- A bounded number of consecutive reverse sweeps (the generator's
`while True` loop, source line 373, truncated after `k` sweeps). -/
def tlSweeps : Nat → TLState → Except String (List Yield × TLState)
  | 0, s => .ok ([], s)
  | k + 1, s =>
    match tlSweep s with
    | .error e => .error e
    | .ok (ys, s1) =>
      match tlSweeps k s1 with
      | .error e => .error e
      | .ok (ys2, s2) => .ok (ys ++ ys2, s2)

/-- A full two-level run: `P` forward periods, finalize at `mN`,
`EndForward`, then `k` reverse sweeps. -/
def tlRun (P mN k : Nat) (s : TLState) : Except String (List Yield × TLState) :=
  let fwd := tlForward mN P s
  let yE : Yield := ⟨.EndForward, fwd.2.r, 0⟩
  match tlSweeps k fwd.2 with
  | .error e => .error e
  | .ok (ys2, s2) => .ok (fwd.1 ++ (yE :: ys2), s2)

/-!
## Invariants of the two-level schedule
-/

/-- The configuration fields of a two-level schedule (everything except the
cursors `n` and `r`) agree. -/
def TLFieldsEq (s s' : TLState) : Prop :=
  s.period = s'.period ∧ s.binomial_snapshots = s'.binomial_snapshots ∧
  s.binomial_storage = s'.binomial_storage ∧
  s.keep_block_0_ics = s'.keep_block_0_ics ∧
  s.trajectory = s'.trajectory ∧ s.max_n = s'.max_n

theorem TLFieldsEq_refl (s : TLState) : TLFieldsEq s s := by
  exact ⟨rfl, rfl, rfl, rfl, rfl, rfl⟩

theorem TLFieldsEq_trans {s t u : TLState} (h1 : TLFieldsEq s t) (h2 : TLFieldsEq t u) :
    TLFieldsEq s u := by
  obtain ⟨a1, a2, a3, a4, a5, a6⟩ := h1
  obtain ⟨b1, b2, b3, b4, b5, b6⟩ := h2
  exact ⟨a1.trans b1, a2.trans b2, a3.trans b3, a4.trans b4, a5.trans b5, a6.trans b6⟩

/-- The list contains no `Read` action. -/
def noReadB (ys : List Yield) : Bool :=
  ys.all (fun y => match y.act with
    | .Read _ _ _ => false
    | _ => true)

/-- Every `Read` at a step that is a multiple of `period` uses the `"disk"`
tier and `delete = false`. -/
def tlReadOkB (period : Nat) (ys : List Yield) : Bool :=
  ys.all (fun y => match y.act with
    | .Read k t d => if k % period == 0 then t == "disk" && !d else true
    | _ => true)

theorem noReadB_append (as bs : List Yield) :
    noReadB (as ++ bs) = (noReadB as && noReadB bs) := by
  simp [noReadB, List.all_append]

theorem tlReadOkB_append (p : Nat) (as bs : List Yield) :
    tlReadOkB p (as ++ bs) = (tlReadOkB p as && tlReadOkB p bs) := by
  simp [tlReadOkB, List.all_append]

theorem tlReadOkB_of_noReadB (p : Nat) (ys : List Yield) (h : noReadB ys = true) :
    tlReadOkB p ys = true := by
  rw [noReadB, List.all_eq_true] at h
  rw [tlReadOkB, List.all_eq_true]
  intro y hy
  have := h y hy
  cases hact : y.act <;> simp_all

theorem wafAll_append (as bs : List Action) (ha : ∀ p, wafAux p as = true)
    (hb : ∀ p, wafAux p bs = true) : ∀ p, wafAux p (as ++ bs) = true := by
  intro p
  rw [wafAux_append, ha, hb]
  rfl

/-- Propositional form of `tlReadOkB`: every `Read` at a step that is a
multiple of `p` uses the `"disk"` tier and `delete = false`. -/
def ReadOk (p : Nat) (ys : List Yield) : Prop :=
  ∀ y ∈ ys, ∀ k t d, y.act = .Read k t d → k % p = 0 → t = "disk" ∧ d = false

theorem ReadOk_append {p : Nat} {as bs : List Yield} (ha : ReadOk p as) (hb : ReadOk p bs) :
    ReadOk p (as ++ bs) := by
  intro y hy
  rcases List.mem_append.mp hy with hy | hy
  · exact ha y hy
  · exact hb y hy

theorem noReadB_no_read {ys : List Yield} (h : noReadB ys = true) {y : Yield} (hy : y ∈ ys)
    {k : Nat} {t : String} {d : Bool} (hact : y.act = .Read k t d) : False := by
  rw [noReadB, List.all_eq_true] at h
  have h2 := h y hy
  rw [hact] at h2
  simp at h2

theorem ReadOk_of_noReadB {p : Nat} {ys : List Yield} (h : noReadB ys = true) :
    ReadOk p ys := by
  intro y hy k t d hact
  exact absurd hact (fun hh => noReadB_no_read h hy hh)

theorem tlReadOkB_of_ReadOk {p : Nat} : ∀ {ys : List Yield}, ReadOk p ys →
    tlReadOkB p ys = true := by
  intro ys h
  rw [tlReadOkB, List.all_eq_true]
  intro y hy
  have hp := h y hy
  cases hact : y.act with
  | Read k t d =>
    simp only
    by_cases hk : k % p = 0
    · obtain ⟨ht, hd⟩ := hp k t d hact hk
      subst ht hd
      simp [hk]
    · simp [hk]
  | Configure a b => simp
  | Forward a b => simp
  | Reverse a b => simp
  | Write a b => simp
  | Clear a b => simp
  | EndForward => simp
  | EndReverse a => simp

theorem ReadOk_of_tlReadOkB {p : Nat} : ∀ {ys : List Yield}, tlReadOkB p ys = true →
    ReadOk p ys := by
  intro ys h y hy k t d hact hk
  rw [tlReadOkB, List.all_eq_true] at h
  have h2 := h y hy
  rw [hact] at h2
  simp only [hk] at h2
  simp at h2
  exact ⟨h2.1, h2.2⟩

/-- A step strictly between two consecutive multiples of `p` is not itself a
multiple of `p`. -/
theorem mod_ne_zero_between (p n0s k : Nat) (h0 : n0s % p = 0) (h1 : n0s < k)
    (h2 : k < n0s + p) : k % p ≠ 0 := by
  intro hk
  rcases Nat.eq_zero_or_pos p with hp | hp
  · subst hp
    rw [Nat.mod_zero] at hk
    omega
  · obtain ⟨a, ha⟩ := Nat.dvd_of_mod_eq_zero h0
    obtain ⟨b, hb⟩ := Nat.dvd_of_mod_eq_zero hk
    have hpab : p * a < p * b := by rw [← ha, ← hb]; exact h1
    have hab : a < b := Nat.lt_of_mul_lt_mul_left hpab
    have h3 : p * a + p ≤ p * b := by
      have h4 : p * (a + 1) ≤ p * b := Nat.mul_le_mul_left p hab
      rw [Nat.mul_add, Nat.mul_one] at h4
      exact h4
    rw [ha, hb] at h2
    exact absurd (Nat.lt_of_lt_of_le h2 h3) (Nat.lt_irrefl _)

theorem getLastD_mem_of_ne_nil (d : Nat) : ∀ (l : List Nat), l ≠ [] → l.getLastD d ∈ l
  | [], h => absurd rfl h
  | [x], _ => by simp [List.getLastD]
  | x :: y :: t, _ => by
    have h := getLastD_mem_of_ne_nil d (y :: t) (by simp)
    have he : (x :: y :: t).getLastD d = (y :: t).getLastD d := by
      simp [List.getLastD_cons]
    rw [he]
    exact List.mem_cons_of_mem x h

theorem mem_of_mem_dropLast {x : Nat} : ∀ {l : List Nat}, x ∈ l.dropLast → x ∈ l := by
  intro l h
  have : l.dropLast ⊆ l := List.dropLast_subset l
  exact this h

/-- The per-step adjoint block: final state and trace shape. -/
theorem tlAdjoint_spec (snaps : List Nat) (s : TLState) :
    (tlAdjoint snaps s).2 = { s with n := s.n + 1, r := s.r + 1 } ∧
    noReadB (tlAdjoint snaps s).1 = true ∧
    (∀ p, wafAux p ((tlAdjoint snaps s).1.map (fun y => y.act)) = true) := by
  refine ⟨rfl, rfl, ?_⟩
  intro p
  simp [tlAdjoint, wafAux]

/-- Invariants of the within-period forward progression: configuration
fields and `r` are preserved, the stack still holds only the period snapshot
`n0s` and inner snapshots strictly inside the period, no `Read` is emitted,
and every `Write` immediately follows the `Forward` starting at its step. -/
theorem tlInnerFwd_spec (mN n0s : Nat) : ∀ (fuel : Nat) (stack : List Nat) (s : TLState)
    (ys : List Yield) (stack' : List Nat) (s' : TLState),
    tlInnerFwd mN fuel stack s = .ok (ys, stack', s') →
    n0s < s.n →
    mN ≤ s.r + n0s + s.period →
    (∀ x ∈ stack, x = n0s ∨ (n0s < x ∧ x < n0s + s.period)) →
    TLFieldsEq s s' ∧ s'.r = s.r ∧ n0s < s'.n ∧
    (∀ x ∈ stack', x = n0s ∨ (n0s < x ∧ x < n0s + s.period)) ∧
    noReadB ys = true ∧
    (∀ p, wafAux p (ys.map (fun y => y.act)) = true) := by
  intro fuel
  induction fuel with
  | zero => intro stack s ys stack' s' h; exact absurd h (by simp [tlInnerFwd])
  | succ fuel ih =>
    intro stack s ys stack' s' h hn0 hM hstk
    rw [tlInnerFwd] at h
    split at h
    · rename_i hcond
      dsimp only at h
      split at h
      · exact absurd h (by simp)
      · rename_i adv hadv
        split at h
        · exact absurd h (by simp)
        · rename_i hgt
          split at h
          · exact absurd h (by simp)
          · rename_i hcap
            split at h
            · exact absurd h (by simp)
            · rename_i ys2 stack2 s2 hrec
              simp only [Except.ok.injEq, Prod.mk.injEq] at h
              obtain ⟨hys, hstack', hs'⟩ := h
              subst hys hstack' hs'
              have hpre1 : n0s < (({s with n := s.n + adv} : TLState)).n := by
                simp only
                omega
              have hpre2 : mN ≤ (({s with n := s.n + adv} : TLState)).r + n0s +
                  (({s with n := s.n + adv} : TLState)).period := by
                simp only
                exact hM
              have hpre3 : ∀ x ∈ stack ++ [s.n], x = n0s ∨
                  (n0s < x ∧ x < n0s + (({s with n := s.n + adv} : TLState)).period) := by
                intro x hx
                simp only
                rcases List.mem_append.mp hx with hx | hx
                · exact hstk x hx
                · simp only [List.mem_singleton] at hx
                  subst hx
                  right
                  constructor
                  · exact hn0
                  · omega
              obtain ⟨hF, hr2, hn2, hstk2, hnr2, hwaf2⟩ := ih _ _ _ _ _ hrec hpre1 hpre2 hpre3
              simp only at hF hr2 hn2 hstk2
              refine ⟨TLFieldsEq_trans ⟨rfl, rfl, rfl, rfl, rfl, rfl⟩ hF, hr2, hn2, hstk2,
                ?_, ?_⟩
              · simp only [noReadB, List.all_cons]
                simpa [noReadB] using hnr2
              · intro p
                simp only [List.map_cons, wafAux, beq_self_eq_true, Bool.and_self,
                  Bool.true_and]
                exact hwaf2 _
    · rename_i hcond
      split at h
      · exact absurd h (by simp)
      · rename_i hneq
        simp only [Except.ok.injEq, Prod.mk.injEq] at h
        obtain ⟨hys, hstack', hs'⟩ := h
        subst hys hstack' hs'
        exact ⟨TLFieldsEq_refl s, rfl, hn0, hstk, rfl, fun p => rfl⟩

/-- Invariants of the within-period reverse loop: configuration fields are
preserved, every `Read` at a multiple of the period uses the `"disk"` tier
with `delete = false`, and every `Write` immediately follows the `Forward`
starting at its step. -/
theorem tlInnerLoop_spec (mN n0s : Nat) : ∀ (fuel : Nat) (stack : List Nat) (s : TLState)
    (ys : List Yield) (stack' : List Nat) (s' : TLState),
    tlInnerLoop mN n0s fuel stack s = .ok (ys, stack', s') →
    n0s % s.period = 0 →
    mN ≤ s.r + n0s + s.period →
    (∀ x ∈ stack, x = n0s ∨ (n0s < x ∧ x < n0s + s.period)) →
    TLFieldsEq s s' ∧
    ReadOk s.period ys ∧
    (∀ p, wafAux p (ys.map (fun y => y.act)) = true) := by
  intro fuel
  induction fuel with
  | zero => intro stack s ys stack' s' h; exact absurd h (by simp [tlInnerLoop])
  | succ fuel ih =>
    intro stack s ys stack' s' h hmod hM hstk
    rw [tlInnerLoop] at h
    split at h
    · rename_i hcond
      split at h
      · exact absurd h (by simp)
      · rename_i hlen
        dsimp only at h
        have hcpmem : stack.getLastD 0 ∈ stack :=
          getLastD_mem_of_ne_nil 0 stack (by intro hnil; rw [hnil] at hlen; exact hlen rfl)
        have hcpinv := hstk _ hcpmem
        have hyRok : ∀ (d1 : Bool) (r1 r2 k1 k2 : Nat) (k t : _) (d : Bool),
            (if stack.getLastD 0 = n0s then
              (⟨.Read (stack.getLastD 0) "disk" false, r1, k1⟩ : Yield) else
              ⟨.Read (stack.getLastD 0) s.binomial_storage d1, r2, k2⟩).act = .Read k t d →
            k % s.period = 0 → t = "disk" ∧ d = false := by
          intro d1 r1 r2 k1 k2 k t d hact hk
          by_cases hc : stack.getLastD 0 = n0s
          · rw [if_pos hc] at hact
            simp only [Action.Read.injEq] at hact
            exact ⟨hact.2.1.symm, hact.2.2.symm⟩
          · rw [if_neg hc] at hact
            simp only [Action.Read.injEq] at hact
            obtain ⟨hk', _, _⟩ := hact
            subst hk'
            rcases hcpinv with hcp0 | ⟨hlo, hhi⟩
            · exact absurd hcp0 hc
            · exact absurd hk (mod_ne_zero_between s.period n0s _ hmod hlo hhi)
        have hyRact : ∀ (d1 : Bool) (r1 r2 k1 k2 : Nat),
            (if stack.getLastD 0 = n0s then
              (⟨.Read (stack.getLastD 0) "disk" false, r1, k1⟩ : Yield) else
              ⟨.Read (stack.getLastD 0) s.binomial_storage d1, r2, k2⟩).act =
            .Read (stack.getLastD 0)
              (if stack.getLastD 0 = n0s then "disk" else s.binomial_storage)
              (if stack.getLastD 0 = n0s then false else d1) := by
          intro d1 r1 r2 k1 k2
          by_cases hc : stack.getLastD 0 = n0s
          · rw [if_pos hc, if_pos hc, if_pos hc]
          · rw [if_neg hc, if_neg hc, if_neg hc]
        split at h
        · rename_i hcp
          split at h
          · exact absurd h (by simp)
          · rename_i ys2 stack2 s2 hrec
            simp only [Except.ok.injEq, Prod.mk.injEq] at h
            obtain ⟨hys, hstack', hs'⟩ := h
            subst hys hstack' hs'
            have hpre1 : n0s %
                ((tlAdjoint stack.dropLast { s with n := stack.getLastD 0 }).2).period = 0 :=
              hmod
            have hpre2 : mN ≤
                ((tlAdjoint stack.dropLast { s with n := stack.getLastD 0 }).2).r + n0s +
                ((tlAdjoint stack.dropLast { s with n := stack.getLastD 0 }).2).period := by
              show mN ≤ s.r + 1 + n0s + s.period
              omega
            have hpre3 : ∀ x ∈ stack.dropLast, x = n0s ∨ (n0s < x ∧ x < n0s +
                ((tlAdjoint stack.dropLast { s with n := stack.getLastD 0 }).2).period) := by
              intro x hx
              exact hstk x (mem_of_mem_dropLast hx)
            obtain ⟨hF, hro, hwaf⟩ := ih _ _ _ _ _ hrec hpre1 hpre2 hpre3
            refine ⟨TLFieldsEq_trans ⟨rfl, rfl, rfl, rfl, rfl, rfl⟩ hF, ?_, ?_⟩
            · intro y hy
              simp only [List.mem_cons, List.mem_append] at hy
              rcases hy with rfl | rfl | hy | hy
              · exact hyRok true s.r s.r stack.dropLast.length stack.dropLast.length
              · intro k t d hact
                simp at hact
              · exact ReadOk_of_noReadB
                  (tlAdjoint_spec stack.dropLast { s with n := stack.getLastD 0 }).2.1 y hy
              · exact hro y hy
            · intro p
              rw [List.map_cons, List.map_cons, List.map_append]
              simp only [hyRact, wafAux, Bool.true_and, List.map_nil, List.append_eq,
                List.nil_append]
              exact hwaf _
        · rename_i hcp
          split at h
          · exact absurd h (by simp)
          · rename_i adv hadv
            split at h
            · exact absurd h (by simp)
            · rename_i hgt
              split at h
              · exact absurd h (by simp)
              · rename_i ysF stackF s3 hfwd
                split at h
                · exact absurd h (by simp)
                · rename_i ys2 stack3 s4 hrec
                  simp only [Except.ok.injEq, Prod.mk.injEq] at h
                  obtain ⟨hys, hstack', hs'⟩ := h
                  subst hys hstack' hs'
                  rw [not_lt] at hgt
                  have hadvpos : 0 < adv := by omega
                  have hcplo : n0s ≤ stack.getLastD 0 := by
                    rcases hcpinv with hcp0 | ⟨hlo, _⟩
                    · omega
                    · omega
                  have hfpre1 : n0s < (({ s with n := stack.getLastD 0 + adv } : TLState)).n := by
                    simp only
                    omega
                  have hfpre2 : mN ≤ (({ s with n := stack.getLastD 0 + adv } : TLState)).r +
                      n0s + (({ s with n := stack.getLastD 0 + adv } : TLState)).period := hM
                  have hfpre3 : ∀ x ∈ stack, x = n0s ∨ (n0s < x ∧ x < n0s +
                      (({ s with n := stack.getLastD 0 + adv } : TLState)).period) := hstk
                  obtain ⟨hF3, hr3, hn3, hstk3, hnr3, hwaf3⟩ :=
                    tlInnerFwd_spec mN n0s _ _ _ _ _ _ hfwd hfpre1 hfpre2 hfpre3
                  obtain ⟨hp3, hb3, hst3, hk3, ht3, hm3⟩ := hF3
                  simp only at hp3 hb3 hst3 hk3 ht3 hm3 hr3 hn3 hstk3
                  have hpre1 : n0s % ((tlAdjoint stackF s3).2).period = 0 := by
                    show n0s % s3.period = 0
                    rw [← hp3]
                    exact hmod
                  have hpre2 : mN ≤ ((tlAdjoint stackF s3).2).r + n0s +
                      ((tlAdjoint stackF s3).2).period := by
                    show mN ≤ s3.r + 1 + n0s + s3.period
                    rw [← hp3, hr3]
                    omega
                  have hpre3 : ∀ x ∈ stackF, x = n0s ∨ (n0s < x ∧ x < n0s +
                      ((tlAdjoint stackF s3).2).period) := by
                    intro x hx
                    show x = n0s ∨ (n0s < x ∧ x < n0s + s3.period)
                    rw [← hp3]
                    exact hstk3 x hx
                  obtain ⟨hF, hro, hwaf⟩ := ih _ _ _ _ _ hrec hpre1 hpre2 hpre3
                  have hFa : TLFieldsEq s s3 := ⟨hp3, hb3, hst3, hk3, ht3, hm3⟩
                  have hFb : TLFieldsEq s3 (tlAdjoint stackF s3).2 :=
                    ⟨rfl, rfl, rfl, rfl, rfl, rfl⟩
                  have hFtot := TLFieldsEq_trans hFa (TLFieldsEq_trans hFb hF)
                  have hper : ((tlAdjoint stackF s3).2).period = s.period := by
                    show s3.period = s.period
                    rw [← hp3]
                  rw [hper] at hro
                  refine ⟨hFtot, ?_, ?_⟩
                  · intro y hy
                    simp only [List.mem_cons, List.mem_append] at hy
                    rcases hy with rfl | rfl | rfl | rfl | rfl | hy | hy | hy
                    · exact hyRok false s.r s.r stack.length stack.length
                    · intro k t d hact
                      simp at hact
                    · intro k t d hact
                      simp at hact
                    · intro k t d hact
                      simp at hact
                    · intro k t d hact
                      simp at hact
                    · exact ReadOk_of_noReadB hnr3 y hy
                    · exact ReadOk_of_noReadB (tlAdjoint_spec stackF s3).2.1 y hy
                    · exact hro y hy
                  · intro p
                    rw [List.map_cons, List.map_cons, List.map_cons, List.map_cons,
                      List.map_cons, List.map_append, List.map_append]
                    simp only [hyRact, wafAux, Bool.true_and]
                    refine wafAll_append _ _ hwaf3 ?_ _
                    exact wafAll_append _ _ (tlAdjoint_spec stackF s3).2.2 hwaf
    · simp only [Except.ok.injEq, Prod.mk.injEq] at h
      obtain ⟨hys, hstack', hs'⟩ := h
      subst hys hstack' hs'
      exact ⟨TLFieldsEq_refl s, fun y hy => absurd hy (List.not_mem_nil y), fun p => rfl⟩

/-- Invariants of the per-period reverse loop: configuration fields are
preserved, every `Read` at a period boundary is a non-deleting disk read,
and every `Write` immediately follows the `Forward` starting at its step. -/
theorem tlPeriodLoop_spec (mN : Nat) : ∀ (fuel : Nat) (s : TLState) (ys : List Yield)
    (s' : TLState), tlPeriodLoop mN fuel s = .ok (ys, s') →
    TLFieldsEq s s' ∧ ReadOk s.period ys ∧
    (∀ p, wafAux p (ys.map (fun y => y.act)) = true) := by
  intro fuel
  induction fuel with
  | zero => intro s ys s' h; exact absurd h (by simp [tlPeriodLoop])
  | succ fuel ih =>
    intro s ys s' h
    rw [tlPeriodLoop] at h
    split at h
    · rename_i hcond
      dsimp only at h
      split at h
      · exact absurd h (by simp)
      · rename_i hchk
        split at h
        · exact absurd h (by simp)
        · rename_i ysI stackI s1 hinner
          split at h
          · exact absurd h (by simp)
          · rename_i hr1
            split at h
            · exact absurd h (by simp)
            · rename_i hlen1
              split at h
              · exact absurd h (by simp)
              · rename_i ys2 s2 hrec
                simp only [Except.ok.injEq, Prod.mk.injEq] at h
                obtain ⟨hys, hs'⟩ := h
                subst hys hs'
                rw [not_not] at hchk
                have hmod : (((mN - s.r - 1) / s.period) * s.period) % s.period = 0 :=
                  Nat.mul_mod_left _ _
                have hM : mN ≤ s.r + ((mN - s.r - 1) / s.period) * s.period + s.period := by
                  omega
                have hstk : ∀ x ∈ [((mN - s.r - 1) / s.period) * s.period],
                    x = ((mN - s.r - 1) / s.period) * s.period ∨
                    (((mN - s.r - 1) / s.period) * s.period < x ∧
                      x < ((mN - s.r - 1) / s.period) * s.period + s.period) := by
                  intro x hx
                  rw [List.mem_singleton] at hx
                  exact Or.inl hx
                obtain ⟨hF1, hro1, hwaf1⟩ :=
                  tlInnerLoop_spec mN _ _ _ _ _ _ _ hinner hmod hM hstk
                obtain ⟨hF2, hro2, hwaf2⟩ := ih _ _ _ hrec
                rw [← hF1.1] at hro2
                refine ⟨TLFieldsEq_trans hF1 hF2, ReadOk_append hro1 hro2, ?_⟩
                intro p
                rw [List.map_append]
                exact wafAll_append _ _ hwaf1 hwaf2 p
    · simp only [Except.ok.injEq, Prod.mk.injEq] at h
      obtain ⟨hys, hs'⟩ := h
      subst hys hs'
      exact ⟨TLFieldsEq_refl s, fun y hy => absurd hy (List.not_mem_nil y), fun p => rfl⟩

/-- Invariants of one complete reverse sweep: configuration fields are
preserved, `r` is reset to `0`, every period-boundary `Read` is a
non-deleting disk read, `Write`s follow their `Forward`s, the sweep ends
with `EndReverse(False)`, and the schedule is never exhausted. -/
theorem tlSweep_spec (s : TLState) (ys : List Yield) (s' : TLState)
    (h : tlSweep s = .ok (ys, s')) :
    TLFieldsEq s s' ∧ s'.r = 0 ∧ ReadOk s.period ys ∧
    (∀ p, wafAux p (ys.map (fun y => y.act)) = true) ∧
    ys.getLast? = some ⟨.EndReverse false, 0, 0⟩ ∧
    tlIsExhausted s' = false := by
  unfold tlSweep at h
  split at h
  · exact absurd h (by simp)
  · rename_i mN hmx
    split at h
    · exact absurd h (by simp)
    · rename_i ys1 s1 hloop
      split at h
      · exact absurd h (by simp)
      · rename_i hr
        dsimp only at h
        simp only [Except.ok.injEq, Prod.mk.injEq] at h
        obtain ⟨hys, hs'⟩ := h
        subst hys hs'
        obtain ⟨hF1, hro1, hwaf1⟩ := tlPeriodLoop_spec mN _ _ _ _ hloop
        refine ⟨TLFieldsEq_trans hF1 ⟨rfl, rfl, rfl, rfl, rfl, rfl⟩, rfl, ?_, ?_, ?_, rfl⟩
        · refine ReadOk_append hro1 ?_
          intro y hy k t d hact
          rw [List.mem_singleton] at hy
          subst hy
          simp at hact
        · intro p
          rw [List.map_append]
          refine wafAll_append _ _ hwaf1 ?_ p
          intro p2
          rfl
        · rw [List.getLast?_concat]

/-- Invariants of a bounded sequence of reverse sweeps. -/
theorem tlSweeps_spec : ∀ (k : Nat) (s : TLState) (ys : List Yield) (s' : TLState),
    tlSweeps k s = .ok (ys, s') →
    TLFieldsEq s s' ∧ ReadOk s.period ys ∧
    (∀ p, wafAux p (ys.map (fun y => y.act)) = true) := by
  intro k
  induction k with
  | zero =>
    intro s ys s' h
    simp only [tlSweeps, Except.ok.injEq, Prod.mk.injEq] at h
    obtain ⟨hys, hs'⟩ := h
    subst hys hs'
    exact ⟨TLFieldsEq_refl s, fun y hy => absurd hy (List.not_mem_nil y), fun p => rfl⟩
  | succ k ih =>
    intro s ys s' h
    rw [tlSweeps] at h
    split at h
    · exact absurd h (by simp)
    · rename_i ys1 s1 hsw
      split at h
      · exact absurd h (by simp)
      · rename_i ys2 s2 hrest
        simp only [Except.ok.injEq, Prod.mk.injEq] at h
        obtain ⟨hys, hs'⟩ := h
        subst hys hs'
        obtain ⟨hF1, _, hro1, hwaf1, _, _⟩ := tlSweep_spec _ _ _ hsw
        obtain ⟨hF2, hro2, hwaf2⟩ := ih _ _ _ hrest
        rw [← hF1.1] at hro2
        refine ⟨TLFieldsEq_trans hF1 hF2, ReadOk_append hro1 hro2, ?_⟩
        intro p
        rw [List.map_append]
        exact wafAll_append _ _ hwaf1 hwaf2 p

/-- The forward phase: `r` and the configuration fields other than `max_n`
are untouched, `max_n` ends finalized at `mN`, no `Read` is emitted, and
each period `Write(n0, "disk")` immediately follows `Forward(n0, n0 + period)`. -/
theorem tlForward_spec (mN : Nat) : ∀ (P : Nat) (s : TLState),
    (tlForward mN P s).2.period = s.period ∧
    (tlForward mN P s).2.binomial_snapshots = s.binomial_snapshots ∧
    (tlForward mN P s).2.binomial_storage = s.binomial_storage ∧
    (tlForward mN P s).2.keep_block_0_ics = s.keep_block_0_ics ∧
    (tlForward mN P s).2.trajectory = s.trajectory ∧
    (tlForward mN P s).2.max_n = some mN ∧
    (tlForward mN P s).2.r = s.r ∧
    noReadB (tlForward mN P s).1 = true ∧
    (∀ p, wafAux p ((tlForward mN P s).1.map (fun y => y.act)) = true) := by
  intro P
  induction P with
  | zero => exact fun s => ⟨rfl, rfl, rfl, rfl, rfl, rfl, rfl, rfl, fun p => rfl⟩
  | succ P ih =>
    intro s
    obtain ⟨h1, h2, h3, h4, h5, h6, h7, h8, h9⟩ := ih { s with n := s.n + s.period }
    refine ⟨h1, h2, h3, h4, h5, h6, h7, ?_, ?_⟩
    · show noReadB (_ :: _ :: _ :: _ :: (tlForward mN P { s with n := s.n + s.period }).1) = true
      simp only [noReadB, List.all_cons]
      simpa [noReadB] using h8
    · intro p
      show wafAux p (List.map (fun y => y.act)
        (_ :: _ :: _ :: _ :: (tlForward mN P { s with n := s.n + s.period }).1)) = true
      simp only [List.map_cons, wafAux, beq_self_eq_true, Bool.and_self, Bool.true_and]
      exact h9 _

/-- Invariants of a full two-level run: every period-boundary `Read` is a
non-deleting disk read and every `Write` immediately follows the `Forward`
starting at its step. -/
theorem tlRun_spec (P mN k : Nat) (s : TLState) (ys : List Yield) (s' : TLState)
    (h : tlRun P mN k s = .ok (ys, s')) :
    ReadOk s.period ys ∧ (∀ p, wafAux p (ys.map (fun y => y.act)) = true) := by
  unfold tlRun at h
  dsimp only at h
  split at h
  · exact absurd h (by simp)
  · rename_i ys2 s2 hsw
    simp only [Except.ok.injEq, Prod.mk.injEq] at h
    obtain ⟨hys, hs'⟩ := h
    subst hys hs'
    obtain ⟨h1, _, _, _, _, _, _, h8, h9⟩ := tlForward_spec mN P s
    obtain ⟨hF2, hro2, hwaf2⟩ := tlSweeps_spec k _ _ _ hsw
    rw [h1] at hro2
    refine ⟨?_, ?_⟩
    · refine ReadOk_append (ReadOk_of_noReadB h8) ?_
      intro y hy
      rw [List.mem_cons] at hy
      rcases hy with rfl | hy
      · intro k2 t d hact
        simp at hact
      · exact hro2 y hy
    · intro p
      rw [List.map_append, List.map_cons]
      refine wafAll_append _ _ h9 ?_ p
      intro p2
      simp only [wafAux, Bool.true_and]
      exact hwaf2 _

/-- The within-period reverse loop never reads the incoming value of the
forward cursor `n`: it is overwritten before first use. -/
theorem tlInnerLoop_n_indep (mN n0s : Nat) (fuel : Nat) (stack : List Nat) (s : TLState)
    (m : Nat) (h : s.r < mN - n0s) :
    tlInnerLoop mN n0s fuel stack ({ s with n := m }) = tlInnerLoop mN n0s fuel stack s := by
  cases fuel with
  | zero => rfl
  | succ fuel =>
    rw [tlInnerLoop, tlInnerLoop]
    dsimp only
    rw [if_pos h, if_pos h]

/-- The per-period reverse loop never reads the incoming value of the
forward cursor `n` while work remains. -/
theorem tlPeriodLoop_n_indep (mN : Nat) (fuel : Nat) (s : TLState) (m : Nat)
    (h : s.r < mN) :
    tlPeriodLoop mN fuel ({ s with n := m }) = tlPeriodLoop mN fuel s := by
  cases fuel with
  | zero => rfl
  | succ fuel =>
    rw [tlPeriodLoop, tlPeriodLoop]
    dsimp only
    rw [if_pos h, if_pos h]
    by_cases hin : s.r < mN - ((mN - s.r - 1) / s.period) * s.period
    · rw [tlInnerLoop_n_indep mN _ (mN + 1) _ s m hin]
    · have hstep : ∀ (t : TLState), t.r = s.r →
          tlInnerLoop mN (((mN - s.r - 1) / s.period) * s.period) (mN + 1)
            [((mN - s.r - 1) / s.period) * s.period] t =
          .ok ([], [((mN - s.r - 1) / s.period) * s.period], t) := by
        intro t ht
        rw [tlInnerLoop]
        rw [if_neg (by rw [ht]; exact hin)]
      rw [hstep { s with n := m } rfl, hstep s rfl]
      dsimp only
      by_cases hchk : s.r ≠ mN - min ((mN - s.r - 1) / s.period * s.period + s.period) mN
      · rw [if_pos hchk, if_pos hchk]
      · rw [if_neg hchk, if_neg hchk]
        by_cases hr1 : s.r ≠ mN - (mN - s.r - 1) / s.period * s.period
        · rw [if_pos hr1, if_pos hr1]
        · rw [if_neg hr1, if_neg hr1]
          have hlen : (([(mN - s.r - 1) / s.period * s.period] : List Nat).length ≠ 0) := by
            simp
          rw [if_pos hlen, if_pos hlen]

/-- Two states equal in every field except `n` and `r`, with the same `r`,
differ only in `n`. -/
theorem tlState_eq_set_n {s t : TLState} (hF : TLFieldsEq s t) (hr : s.r = t.r) :
    t = { s with n := t.n } := by
  obtain ⟨h1, h2, h3, h4, h5, h6⟩ := hF
  cases s
  cases t
  simp only at h1 h2 h3 h4 h5 h6 hr ⊢
  simp [h1, h2, h3, h4, h5, h6, hr]

theorem tlState_eta_r {s : TLState} (h : s.r = 0) : ({ s with r := 0 } : TLState) = s := by
  cases s
  simp only at h
  simp [h]

/-- A reverse sweep started at `r = 0` is a fixed point: the final state
reproduces exactly the same sweep. -/
theorem tlSweep_fix (s : TLState) (ys : List Yield) (s' : TLState) (hr0 : s.r = 0)
    (h : tlSweep s = .ok (ys, s')) : tlSweep s' = .ok (ys, s') := by
  obtain ⟨hF, hr', _, _, _, _⟩ := tlSweep_spec s ys s' h
  have h2 := h
  unfold tlSweep at h2
  split at h2
  · exact absurd h2 (by simp)
  · rename_i mN hmx
    split at h2
    · exact absurd h2 (by simp)
    · rename_i ys1 s1 hloop
      split at h2
      · exact absurd h2 (by simp)
      · rename_i hr
        rw [not_not] at hr
        dsimp only at h2
        simp only [Except.ok.injEq, Prod.mk.injEq] at h2
        obtain ⟨hys, hs1'⟩ := h2
        rcases Nat.eq_zero_or_pos mN with hmN | hmN
        · have hloop1 : tlPeriodLoop mN (mN + 1) s = .ok ([], s) := by
            subst hmN
            rw [tlPeriodLoop]
            rw [if_neg (by omega)]
          rw [hloop1] at hloop
          simp only [Except.ok.injEq, Prod.mk.injEq] at hloop
          obtain ⟨hys1, hs1⟩ := hloop
          have hseq : s' = s := by
            rw [← hs1']
            rw [← hs1]
            exact tlState_eta_r hr0
          rw [hseq]
          rw [hseq] at h
          exact h
        · have hs'n : s' = { s with n := s'.n } := by
            refine tlState_eq_set_n ?_ ?_
            · exact hF
            · rw [hr', hr0]
          have hmx' : s'.max_n = some mN := by
            rw [← hF.2.2.2.2.2]
            exact hmx
          have hloop' : tlPeriodLoop mN (mN + 1) s' = .ok (ys1, s1) := by
            rw [hs'n]
            rw [tlPeriodLoop_n_indep mN (mN + 1) s s'.n (by omega)]
            exact hloop
          unfold tlSweep
          simp only [hmx']
          simp only [hloop']
          rw [if_neg (fun hc => hc hr)]
          rw [hys, hs1']

/-!
## Concrete instances used to exercise the schedules
-/

/-- The multistage schedule `(max_n, ram, disk) = (10, 3, 0)`. -/
def msC2s : MSState := { max_n := 10, snapshots_in_ram := 3, snapshots_on_disk := 0, storage := ["RAM", "RAM", "RAM"], n := 0, r := 0, snapshots := [], exhausted := false, keep_block_0_ics := false, trajectory := "revolve" }

/-- The multistage schedule `(max_n, ram, disk) = (2, 2, 0)`. -/
def msC2w : MSState := { max_n := 2, snapshots_in_ram := 2, snapshots_on_disk := 0, storage := ["RAM", "RAM"], n := 0, r := 0, snapshots := [], exhausted := false, keep_block_0_ics := false, trajectory := "maximum" }

/-- Its final state after a complete run. -/
def msC2wf : MSState := { max_n := 2, snapshots_in_ram := 2, snapshots_on_disk := 0, storage := ["RAM", "RAM"], n := 1, r := 2, snapshots := [], exhausted := true, keep_block_0_ics := false, trajectory := "maximum" }

/-- The complete trace of `msC2w`. -/
def ysC2w : List Yield := [⟨.Configure true false, 0, 0⟩, ⟨.Forward 0 1, 0, 0⟩, ⟨.Write 0 "RAM", 0, 1⟩, ⟨.Clear true true, 0, 1⟩, ⟨.Configure false true, 0, 1⟩, ⟨.Forward 1 2, 0, 1⟩, ⟨.EndForward, 0, 1⟩, ⟨.Reverse 2 1, 1, 1⟩, ⟨.Clear true true, 1, 1⟩, ⟨.Read 0 "RAM" true, 1, 0⟩, ⟨.Clear true true, 1, 0⟩, ⟨.Configure false true, 1, 0⟩, ⟨.Forward 0 1, 1, 0⟩, ⟨.Reverse 1 0, 2, 0⟩, ⟨.Clear true true, 2, 0⟩, ⟨.EndReverse true, 2, 0⟩]

/-- The multistage schedule `(max_n, ram, disk) = (1, 1, 0)`. -/
def msC3w : MSState := { max_n := 1, snapshots_in_ram := 1, snapshots_on_disk := 0, storage := ["RAM"], n := 0, r := 0, snapshots := [], exhausted := false, keep_block_0_ics := false, trajectory := "maximum" }

/-- Its final state after a complete run. -/
def msC3wf : MSState := { max_n := 1, snapshots_in_ram := 1, snapshots_on_disk := 0, storage := ["RAM"], n := 1, r := 1, snapshots := [], exhausted := true, keep_block_0_ics := false, trajectory := "maximum" }

/-- The complete trace of `msC3w`. -/
def ysC3w : List Yield := [⟨.Configure false true, 0, 0⟩, ⟨.Forward 0 1, 0, 0⟩, ⟨.EndForward, 0, 0⟩, ⟨.Reverse 1 0, 1, 0⟩, ⟨.Clear true true, 1, 0⟩, ⟨.EndReverse true, 1, 0⟩]

/-- The multistage schedule `(max_n, ram, disk) = (3, 1, 0)`. -/
def msC4s : MSState := { max_n := 3, snapshots_in_ram := 1, snapshots_on_disk := 0, storage := ["RAM"], n := 0, r := 0, snapshots := [], exhausted := false, keep_block_0_ics := false, trajectory := "revolve" }

/-- The multistage schedule `(max_n, ram, disk) = (2, 1, 0)`. -/
def msC4w : MSState := { max_n := 2, snapshots_in_ram := 1, snapshots_on_disk := 0, storage := ["RAM"], n := 0, r := 0, snapshots := [], exhausted := false, keep_block_0_ics := false, trajectory := "maximum" }

/-- Its final state after a complete run. -/
def msC4wf : MSState := { max_n := 2, snapshots_in_ram := 1, snapshots_on_disk := 0, storage := ["RAM"], n := 1, r := 2, snapshots := [], exhausted := true, keep_block_0_ics := false, trajectory := "maximum" }

/-- The complete trace of `msC4w`. -/
def ysC4m : List Yield := [⟨.Configure true false, 0, 0⟩, ⟨.Forward 0 1, 0, 0⟩, ⟨.Write 0 "RAM", 0, 1⟩, ⟨.Clear true true, 0, 1⟩, ⟨.Configure false true, 0, 1⟩, ⟨.Forward 1 2, 0, 1⟩, ⟨.EndForward, 0, 1⟩, ⟨.Reverse 2 1, 1, 1⟩, ⟨.Clear true true, 1, 1⟩, ⟨.Read 0 "RAM" true, 1, 0⟩, ⟨.Clear true true, 1, 0⟩, ⟨.Configure false true, 1, 0⟩, ⟨.Forward 0 1, 1, 0⟩, ⟨.Reverse 1 0, 2, 0⟩, ⟨.Clear true true, 2, 0⟩, ⟨.EndReverse true, 2, 0⟩]

/-- A fresh two-level schedule with `period = 2` and one binomial snapshot. -/
def tlC4w : TLState := { period := 2, binomial_snapshots := 1, binomial_storage := "RAM", keep_block_0_ics := false, trajectory := "maximum", max_n := none, n := 0, r := 0 }

/-- Its final state after one forward period finalized at 2 and one sweep. -/
def tlC4wf : TLState := { period := 2, binomial_snapshots := 1, binomial_storage := "RAM", keep_block_0_ics := false, trajectory := "maximum", max_n := some 2, n := 1, r := 0 }

/-- The complete trace of `tlRun 1 2 1 tlC4w`. -/
def ysC4t : List Yield := [⟨.Configure true false, 0, 0⟩, ⟨.Forward 0 2, 0, 0⟩, ⟨.Write 0 "disk", 0, 0⟩, ⟨.Clear true true, 0, 0⟩, ⟨.EndForward, 0, 0⟩, ⟨.Read 0 "disk" false, 0, 1⟩, ⟨.Clear true true, 0, 1⟩, ⟨.Configure false false, 0, 1⟩, ⟨.Forward 0 1, 0, 1⟩, ⟨.Clear true true, 0, 1⟩, ⟨.Configure false true, 0, 1⟩, ⟨.Forward 1 2, 0, 1⟩, ⟨.Reverse 2 1, 1, 1⟩, ⟨.Clear true true, 1, 1⟩, ⟨.Read 0 "disk" false, 1, 0⟩, ⟨.Clear true true, 1, 0⟩, ⟨.Configure false true, 1, 0⟩, ⟨.Forward 0 1, 1, 0⟩, ⟨.Reverse 1 0, 2, 0⟩, ⟨.Clear true true, 2, 0⟩, ⟨.EndReverse false, 0, 0⟩]

/-- The multistage schedule `(max_n, ram, disk) = (3, 0, 0)`: accepted by the
constructor despite having no snapshot slot. -/
def msC5a : MSState := { max_n := 3, snapshots_in_ram := 0, snapshots_on_disk := 0, storage := [], n := 0, r := 0, snapshots := [], exhausted := false, keep_block_0_ics := false, trajectory := "maximum" }

/-- The multistage schedule `(max_n, ram, disk) = (5, 2, 0)` with an unknown
trajectory: accepted by the constructor. -/
def msC5b : MSState := { max_n := 5, snapshots_in_ram := 2, snapshots_on_disk := 0, storage := ["RAM", "RAM"], n := 0, r := 0, snapshots := [], exhausted := false, keep_block_0_ics := false, trajectory := "bogus" }

/-- A two-level schedule with `period = 1`, finalized at `max_n = 1`,
positioned at the start of a reverse sweep. -/
def tlC8w : TLState := { period := 1, binomial_snapshots := 1, binomial_storage := "RAM", keep_block_0_ics := false, trajectory := "maximum", max_n := some 1, n := 1, r := 0 }

/-- The trace of one reverse sweep of `tlC8w`. -/
def ysC8w : List Yield := [⟨.Read 0 "disk" false, 0, 0⟩, ⟨.Clear true true, 0, 0⟩, ⟨.Configure false true, 0, 0⟩, ⟨.Forward 0 1, 0, 0⟩, ⟨.Reverse 1 0, 1, 0⟩, ⟨.Clear true true, 1, 0⟩, ⟨.EndReverse false, 0, 0⟩]

/-- A fresh two-level schedule with `disk_period = 5` and one binomial
snapshot slot. -/
def tlC9s : TLState := { period := 5, binomial_snapshots := 1, binomial_storage := "RAM", keep_block_0_ics := true, trajectory := "maximum", max_n := none, n := 0, r := 0 }

/-- A fresh two-level schedule with `period = 1`. -/
def tlC10w : TLState := { period := 1, binomial_snapshots := 1, binomial_storage := "RAM", keep_block_0_ics := false, trajectory := "maximum", max_n := none, n := 0, r := 0 }

/-- Its final state after `tlRun 1 1 1`. -/
def tlC10wf : TLState := { period := 1, binomial_snapshots := 1, binomial_storage := "RAM", keep_block_0_ics := false, trajectory := "maximum", max_n := some 1, n := 1, r := 0 }

/-- The complete trace of `tlRun 1 1 1 tlC10w`. -/
def ysC10w : List Yield := [⟨.Configure true false, 0, 0⟩, ⟨.Forward 0 1, 0, 0⟩, ⟨.Write 0 "disk", 0, 0⟩, ⟨.Clear true true, 0, 0⟩, ⟨.EndForward, 0, 0⟩, ⟨.Read 0 "disk" false, 0, 0⟩, ⟨.Clear true true, 0, 0⟩, ⟨.Configure false true, 0, 0⟩, ⟨.Forward 0 1, 0, 0⟩, ⟨.Reverse 1 0, 1, 0⟩, ⟨.Clear true true, 1, 0⟩, ⟨.EndReverse false, 0, 0⟩]

/-!
## The claims
-/

/-- C1: for every `n ≥ 2` and `snapshots ≥ 1` with trajectory `"maximum"`
or `"revolve"`, `n_advance` succeeds with `0 < r < n`, returning exactly
`n - 1` when `snapshots = 1` and exactly `1` when `snapshots ≥ n - 1`.
(The claim's range `n ≥ 1` is amended to `n ≥ 2`: see the counterexample
at `n = 1`.) -/
theorem claim_C1 (n s : Nat) (traj : String) (hn : 2 ≤ n) (hs : 1 ≤ s)
    (htraj : traj = "maximum" ∨ traj = "revolve") :
    ∃ r, n_advance n s traj = .ok r ∧ 0 < r ∧ r < n ∧
      (s = 1 → r = n - 1) ∧ (n - 1 ≤ s → r = 1) :=
  n_advance_ok n s traj hn hs htraj

/-- C1 witness: the amended claim at `n = 10`, `snapshots = 3`. -/
theorem claim_C1_witness :
    ∃ r, n_advance 10 3 "maximum" = .ok r ∧ 0 < r ∧ r < 10 ∧
      (3 = 1 → r = 10 - 1) ∧ (10 - 1 ≤ 3 → r = 1) :=
  claim_C1 10 3 "maximum" (by decide) (by decide) (Or.inl rfl)

/-- C1 counterexample: at `n = 1`, `snapshots = 1` the claim requires the
result `1` (since `snapshots ≥ n - 1`), but `n_advance` returns `0`. -/
theorem claim_C1_counterexample :
    n_advance 1 1 "maximum" = .ok 0 ∧ (1 : Nat) - 1 ≤ 1 ∧ (0 : Nat) ≠ 1 :=
  ⟨rfl, by decide, by decide⟩

/-- C2: for a multistage run the snapshot-stack ghost record is consistent,
the stack never exceeds the configured capacity, and the stack is empty at
`EndReverse`.  (The claim's bound on the *total number of `Write` actions*
is amended to a bound on the stack of live snapshots: see the
counterexample, where 6 writes exceed the capacity 3.) -/
theorem claim_C2 (s : MSState) (ys : List Yield) (s' : MSState) (hr0 : s.r = 0)
    (hcap : s.snapshots.length ≤ msCap s) (h : msRun s = .ok (ys, s')) :
    stkOkB s.snapshots.length ys = true ∧ (∀ y ∈ ys, y.stk ≤ msCap s) ∧
    s'.snapshots.length = 0 ∧ ys.getLast? = some ⟨.EndReverse true, s.max_n, 0⟩ := by
  obtain ⟨_, _, hlast, _, _, _, _, _, hlen, hstk, hbound, _⟩ := msRun_spec s ys s' hr0 h
  exact ⟨hstk, hbound hcap, hlen, hlast⟩

/-- C2 witness: the amended claim on the complete `(2, 2, 0)` run. -/
theorem claim_C2_witness :
    stkOkB msC2w.snapshots.length ysC2w = true ∧ (∀ y ∈ ysC2w, y.stk ≤ msCap msC2w) ∧
    msC2wf.snapshots.length = 0 ∧
    ysC2w.getLast? = some ⟨.EndReverse true, msC2w.max_n, 0⟩ :=
  claim_C2 msC2w ysC2w msC2wf rfl (by decide) (by rfl)

/-- C2 counterexample: the `(10, 3, 0)` multistage run yields 6 `Write`
actions, exceeding `snapshots_in_ram + snapshots_on_disk = 3`. -/
theorem claim_C2_counterexample :
    msInit 10 3 0 false "revolve" = .ok msC2s ∧
    (msRun msC2s).map (fun p => countWrite p.1) = .ok 6 ∧
    msCap msC2s = 3 :=
  ⟨rfl, rfl, rfl⟩

/-- C3: over a complete multistage run the ghost reverse counter is
consistent (`r` increases by exactly 1 at each `Reverse` and nowhere else),
there are exactly `max_n` `Reverse` actions, `r` attains `max_n` on exactly
one `Reverse`, and the single `EndReverse` closes the trace carrying
`r = max_n` and `exhausted = True`, after which `is_exhausted()` holds. -/
theorem claim_C3 (s : MSState) (ys : List Yield) (s' : MSState) (hr0 : s.r = 0)
    (h : msRun s = .ok (ys, s')) :
    rOk 0 ys = true ∧ countRev ys = s.max_n ∧ countEndRev ys = 1 ∧
    (ys.filter (fun y => isRev y.act && (y.r == s.max_n))).length = 1 ∧
    ys.getLast? = some ⟨.EndReverse true, s.max_n, 0⟩ ∧
    s'.r = s.max_n ∧ msIsExhausted s' = true := by
  obtain ⟨hcr, hce, hlast, hrok, hra, hr', hmax1, hex, _, _, _, _⟩ := msRun_spec s ys s' hr0 h
  refine ⟨hrok, hcr, hce, ?_, hlast, hr', hex⟩
  have hcount := rOk_count_at ys 0 hrok s.max_n
  rw [hra] at hcount
  rw [hcount, if_pos ⟨hmax1, le_refl _⟩]

/-- C3 witness: the claim on the complete `(1, 1, 0)` run. -/
theorem claim_C3_witness :
    rOk 0 ysC3w = true ∧ countRev ysC3w = msC3w.max_n ∧ countEndRev ysC3w = 1 ∧
    (ysC3w.filter (fun y => isRev y.act && (y.r == msC3w.max_n))).length = 1 ∧
    ysC3w.getLast? = some ⟨.EndReverse true, msC3w.max_n, 0⟩ ∧
    msC3wf.r = msC3w.max_n ∧ msIsExhausted msC3wf = true :=
  claim_C3 msC3w ysC3w msC3wf rfl (by rfl)

/-- C4: in every multistage and every two-level trace, each `Write(n, tier)`
occurs immediately after a `Forward` action — but one *starting* at `n`
(the snapshot captures the state at the start of the just-executed block),
not ending at `n` as the claim words it: see the counterexample. -/
theorem claim_C4 :
    (∀ (s : MSState) (ys : List Yield) (s' : MSState), s.r = 0 →
      msRun s = .ok (ys, s') → wafAux none (ys.map (fun y => y.act)) = true) ∧
    (∀ (P mN k : Nat) (s : TLState) (ys : List Yield) (s' : TLState),
      tlRun P mN k s = .ok (ys, s') → wafAux none (ys.map (fun y => y.act)) = true) := by
  constructor
  · intro s ys s' hr0 h
    obtain ⟨_, _, _, _, _, _, _, _, _, _, _, hwaf⟩ := msRun_spec s ys s' hr0 h
    exact hwaf none
  · intro P mN k s ys s' h
    exact (tlRun_spec P mN k s ys s' h).2 none

/-- C4 witness: `Write`-follows-`Forward`-starting-at-`n` on the complete
`(2, 1, 0)` multistage run and on a full two-level run. -/
theorem claim_C4_witness :
    wafAux none (ysC4m.map (fun y => y.act)) = true ∧
    wafAux none (ysC4t.map (fun y => y.act)) = true :=
  ⟨claim_C4.1 msC4w ysC4m msC4wf rfl (by rfl),
   claim_C4.2 1 2 1 tlC4w ysC4t tlC4wf (by rfl)⟩

/-- C4 counterexample: in the `(3, 1, 0)` multistage run a
`Write(0, "RAM")` immediately follows `Forward(0, 2)`, which ends at 2, not
at 0 — the claim's reading (`n1 == n`) is violated while the
starting-step reading (`n0 == n`) holds throughout. -/
theorem claim_C4_counterexample :
    msInit 3 1 0 false "revolve" = .ok msC4s ∧
    (msRun msC4s).map (fun p => wafClaimAux none (p.1.map (fun y => y.act))) = .ok false ∧
    (msRun msC4s).map (fun p => wafAux none (p.1.map (fun y => y.act))) = .ok true :=
  ⟨rfl, rfl, rfl⟩

/-- C5: the two-level constructor rejects exactly the non-positive periods
and unknown storage tiers, immediately at construction.  (The claim's
stronger statement — that *every* configuration error, including zero
snapshot counts and unknown trajectory policies, is raised at construction —
is refuted by the counterexample: the multistage constructor defers both.) -/
theorem claim_C5 (dp : Int) (bs : Nat) (st : String) (kb : Bool) (tr : String) :
    (∃ e, tlInit dp bs st kb tr = .error e) ↔
      (dp < 1 ∨ (st ≠ "RAM" ∧ st ≠ "disk")) := by
  unfold tlInit
  by_cases h1 : dp < 1
  · rw [if_pos h1]
    constructor
    · intro _
      exact Or.inl h1
    · intro _
      exact ⟨"disk_period must be positive", rfl⟩
  · rw [if_neg h1]
    by_cases h2 : ¬(st = "RAM" ∨ st = "disk")
    · rw [if_pos h2]
      push_neg at h2
      constructor
      · intro _
        exact Or.inr ⟨h2.1, h2.2⟩
      · intro _
        exact ⟨"Invalid storage", rfl⟩
    · rw [if_neg h2]
      constructor
      · rintro ⟨e, he⟩
        exact absurd he (by simp)
      · intro hc
        rcases hc with hc | hc
        · exact absurd hc h1
        · rw [not_not] at h2
          rcases h2 with h2 | h2
          · exact absurd h2 hc.1
          · exact absurd h2 hc.2

/-- C5 counterexample: the multistage constructor accepts a zero snapshot
count and an unknown trajectory policy; both errors surface only when the
schedule is run. -/
theorem claim_C5_counterexample :
    msInit 3 0 0 false "maximum" = .ok msC5a ∧
    msRun msC5a = .error "Require at least one snapshot" ∧
    msInit 5 2 0 false "bogus" = .ok msC5b ∧
    msRun msC5b = .error "Unexpected trajectory" :=
  ⟨rfl, rfl, rfl, rfl⟩

/-- C6: the allocator's dry simulation runs the multistage schedule with
every slot provisionally in *RAM* (not disk, as the claim words it: see the
counterexample), accumulating `write_weight` per `Write` and `read_weight`
(plus `delete_weight` on a freeing `Read`) per `Read`, with slots identified
by stack position; the tiers are then assigned from those weights. -/
theorem claim_C6 (max_n sr sd : Nat) (ww rw dw : ℚ) (traj : String)
    (w : List ℚ) (alloc : List String)
    (h : allocate_snapshots max_n sr sd ww rw dw traj = .ok (w, alloc)) :
    ∃ ys s', msRun (dryState max_n (sr + sd) traj) = .ok (ys, s') ∧
      (dryState max_n (sr + sd) traj).storage = List.replicate (sr + sd) "RAM" ∧
      w = specWeights ww rw dw (List.replicate (sr + sd) 0) ys ∧
      alloc = allocFromWeights sr w := by
  unfold allocate_snapshots at h
  dsimp only at h
  split at h
  · exact absurd h (by simp)
  · rename_i ys s' hrun
    split at h
    · exact absurd h (by simp)
    · rename_i i wgt hfold
      split at h
      · exact absurd h (by simp)
      · rename_i hi
        simp only [Except.ok.injEq, Prod.mk.injEq] at h
        obtain ⟨hw, halloc⟩ := h
        refine ⟨ys, s', hrun, rfl, ?_, ?_⟩
        · obtain ⟨_, _, _, _, _, _, _, _, _, hstk, _, _⟩ :=
            msRun_spec _ ys s' rfl hrun
          have hstart : ((-1 : Int), (List.replicate (sr + sd) (0 : ℚ)))
              = ((((0 : Nat) : Int) - 1), List.replicate (sr + sd) (0 : ℚ)) := by
            norm_num
          rw [hstart] at hfold
          have hfe := allocFold_eq (sr + sd) ww rw dw ys 0
            (List.replicate (sr + sd) 0) (i, wgt) hstk hfold
          rw [← hw]
          exact hfe.2
        · rw [← halloc, hw]

/-- C6 witness: the amended claim at `(max_n, ram, disk) = (1, 1, 1)` with
the default weights. -/
theorem claim_C6_witness :
    ∃ ys s', msRun (dryState 1 (1 + 1) "maximum") = .ok (ys, s') ∧
      (dryState 1 (1 + 1) "maximum").storage = List.replicate (1 + 1) "RAM" ∧
      [(0 : ℚ), 0] = specWeights 1 1 0 (List.replicate (1 + 1) 0) ys ∧
      ["RAM", "disk"] = allocFromWeights 1 [(0 : ℚ), 0] :=
  claim_C6 1 1 1 1 1 0 "maximum" [0, 0] ["RAM", "disk"] (by rfl)

/-- C6 counterexample: the dry simulation provisions every slot as `"RAM"`,
not `"disk"`: the dry state's tier list is all-RAM and its trace contains
`Write`s carrying the `"RAM"` tier. -/
theorem claim_C6_counterexample :
    (dryState 3 2 "revolve").storage = ["RAM", "RAM"] ∧
    (["RAM", "RAM"] : List String) ≠ List.replicate 2 "disk" ∧
    (msRun (dryState 3 2 "revolve")).map
      (fun p => p.1.countP (fun y => match y.act with
        | .Write _ t => t == "RAM"
        | _ => false)) = .ok 2 :=
  ⟨rfl, by decide, rfl⟩

/-- C7: the tier allocator assigns RAM to the `snapshots_in_ram` slots of
highest accumulated weight with ties broken by original slot order; given
all-equal weights, exactly the first `snapshots_in_ram` slots get RAM. -/
theorem claim_C7 :
    (∀ (sr : Nat) (w : List ℚ) (c : ℚ), (∀ v ∈ w, v = c) →
      allocFromWeights sr w
        = (List.range w.length).map (fun i => if i < sr then "RAM" else "disk")) ∧
    (∀ (sr : Nat) (w : List ℚ) (i j : Nat), i < w.length → j < w.length →
      (allocFromWeights sr w).getD i "" = "RAM" →
      (allocFromWeights sr w).getD j "" = "disk" →
      w.getD j 0 < w.getD i 0 ∨ (w.getD i 0 = w.getD j 0 ∧ i < j)) :=
  ⟨fun sr w c hc => allocFromWeights_all_eq sr w c hc,
   fun sr w i j hi hj hri hrj => allocFromWeights_pair sr w i j hi hj hri hrj⟩

/-- C7 witness: both parts at concrete weight lists. -/
theorem claim_C7_witness :
    allocFromWeights 2 [(1 : ℚ), 1, 1]
      = (List.range ([(1 : ℚ), 1, 1].length)).map
          (fun i => if i < 2 then "RAM" else "disk") ∧
    ([(1 : ℚ), 3, 2].getD 0 0 < [(1 : ℚ), 3, 2].getD 1 0 ∨
      ([(1 : ℚ), 3, 2].getD 1 0 = [(1 : ℚ), 3, 2].getD 0 0 ∧ 1 < 0)) :=
  ⟨claim_C7.1 2 [(1 : ℚ), 1, 1] 1 (by decide),
   claim_C7.2 1 [(1 : ℚ), 3, 2] 1 0 (by decide) (by decide) (by rfl) (by rfl)⟩

/-- C8: a two-level reverse sweep started at `r = 0` ends by resetting `r`
to 0 and yielding `EndReverse(False)`, the schedule is never exhausted, and
an immediately following second sweep produces the identical action
sequence and state. -/
theorem claim_C8 (s : TLState) (ys : List Yield) (s' : TLState) (hr0 : s.r = 0)
    (h : tlSweep s = .ok (ys, s')) :
    tlSweep s' = .ok (ys, s') ∧ s'.r = 0 ∧
    ys.getLast? = some ⟨.EndReverse false, 0, 0⟩ ∧ tlIsExhausted s' = false := by
  obtain ⟨_, hr', _, _, hlast, hex⟩ := tlSweep_spec s ys s' h
  exact ⟨tlSweep_fix s ys s' hr0 h, hr', hlast, hex⟩

/-- C8 witness: the sweep of the `period = 1`, `max_n = 1` schedule is its
own fixed point. -/
theorem claim_C8_witness :
    tlSweep tlC8w = .ok (ysC8w, tlC8w) ∧ tlC8w.r = 0 ∧
    ysC8w.getLast? = some ⟨.EndReverse false, 0, 0⟩ ∧ tlIsExhausted tlC8w = false :=
  claim_C8 tlC8w ysC8w tlC8w rfl (by rfl)

/-- C9: with `disk_period = 5` and three forward periods finalized at
`max_n = 15`, the forward sweep writes period disk snapshots at exactly the
steps 0, 5 and 10, and the reverse sweep restores disk snapshots only at
those three steps — each such restore being a non-deleting disk read. -/
theorem claim_C9 :
    tlInit 5 1 "RAM" true "maximum" = .ok tlC9s ∧
    ((tlForward 15 3 tlC9s).1.filter (fun y => isWrite y.act)).map (fun y => y.act)
      = [.Write 0 "disk", .Write 5 "disk", .Write 10 "disk"] ∧
    (tlSweep (tlForward 15 3 tlC9s).2).map
      (fun p => ((p.1.filter (fun y => match y.act with
          | .Read _ "disk" _ => true
          | _ => false)).map (fun y => match y.act with
          | .Read n _ _ => n
          | _ => 0)).dedup) = .ok [10, 5, 0] ∧
    (tlSweep (tlForward 15 3 tlC9s).2).map (fun p => tlReadOkB 5 p.1) = .ok true :=
  ⟨rfl, rfl, rfl, rfl⟩

/-- C10: in every two-level run, every `Read` at a period-boundary step (a
multiple of `disk_period`) is a `"disk"` read with `delete = False`; only
inner binomial snapshots are ever read with `delete = True`. -/
theorem claim_C10 (P mN k : Nat) (s : TLState) (ys : List Yield) (s' : TLState)
    (h : tlRun P mN k s = .ok (ys, s')) : tlReadOkB s.period ys = true :=
  tlReadOkB_of_ReadOk ((tlRun_spec P mN k s ys s' h).1)

/-- C10 witness: the claim on a complete `period = 1` two-level run. -/
theorem claim_C10_witness : tlReadOkB tlC10w.period ysC10w = true :=
  claim_C10 1 1 1 tlC10w ysC10w tlC10wf (by rfl)

end TLM
